import Mathlib

/-!
fluid_sim, chapter 1: the bouncing-wave demo (`src/ch1/hello_world_ex.cpp`)

A shallow embedding of the oscillator update, the wave accumulation kernel, the
two renderers and one iteration of the driver loop, followed by the properties
established about them.

Conventions of the embedding.

* `double` values are modelled by an arbitrary linearly ordered field `α`
  (`ℚ` and `ℝ` are the instances used in concrete evaluations).  The first set of
  definitions computes in exact arithmetic.  The second set (`updateWaveFl`,
  `windowStartFl`, `windowEndFl`, `addHeightFl`, ...) applies a rounding `fl` to the
  result of every floating-point operation; `roundDouble` is the rounding of binary64.
  Where the outcome of the code depends on the rounding (the comparisons of the
  oscillator, the conversion of the window products to `int`, the order of the sums
  stored in a cell) the statements are made about the second set.  Infinities, NaN
  and subnormal numbers are outside the model.
* `std::cos` and `M_PI` come from `<cmath>`, not from this repository; the
  kernel takes them as the parameters `cosF` and `piC`.  Statements that need
  facts about the cosine instantiate them with `Real.cos` and `Real.pi`.
* Operations whose behaviour C++ leaves undefined (a `double` to integer
  conversion whose value does not fit, a store outside the array) yield `none`.
-/

namespace FluidSim

/-! ## Definitions -/

/-- Source line 12: `const size_t kBufferSize = 80;`. -/
def kBufferSize : ℕ := 80

/-- The oscillator update, source lines 16-26.  The two out-parameters `*x` and
`*speed` are returned as the pair `(x, speed)`.  The two `if` statements are
sequential in the source: the second one tests the position written by the
first.  Exact arithmetic: the sum compared with 1 and 0 is not rounded; `updateWaveFl`
is the same code with every operation rounded. -/
def updateWave {α : Type} [LinearOrderedField α] (timeInterval x speed : α) : α × α :=
  let x1 := x + timeInterval * speed
  let r1 : α × α :=
    if x1 > 1 then (1 + timeInterval * (speed * -1), speed * -1) else (x1, speed)
  if r1.1 < 0 then (timeInterval * (r1.2 * -1), r1.2 * -1) else r1

section Kernel

variable {α : Type} [LinearOrderedField α] [FloorRing α]

/-- The integer obtained from a `double` by discarding its fractional part, which is
what `static_cast` to an integer type does: rounding is toward zero. -/
def truncate (d : α) : ℤ :=
  if 0 ≤ d then ⌊d⌋ else ⌈d⌉

/-- `static_cast<int>(d)` for a 32-bit `int`: the truncated value, undefined (`none`)
when it is not representable. -/
def staticCastInt (d : α) : Option ℤ :=
  if -2147483648 ≤ truncate d ∧ truncate d ≤ 2147483647 then some (truncate d) else none

/-- `static_cast<size_t>(d)` for a 64-bit `size_t`: the truncated value, undefined
(`none`) when it is negative or too large. -/
def staticCastSizeT (d : α) : Option ℕ :=
  if 0 ≤ truncate d ∧ truncate d < 18446744073709551616 then some (truncate d).toNat else none

/-- Conversion of an unsigned 64-bit value to `int`: reduction modulo `2^32` into the
signed range. -/
def wrapInt32 (n : ℤ) : ℤ :=
  (n + 2147483648) % 4294967296 - 2147483648

/-! ### The wave accumulation kernel -/

/-- The height field, `std::array<double, kBufferSize>`. -/
abbrev HeightField (α : Type) : Type := Fin kBufferSize → α

/-- Source line 36: `start = static_cast<int>((x - quarterWaveLength) * kBufferSize)` with
`quarterWaveLength = 0.25 * waveLength` (line 35).  Exact arithmetic: the product that
is converted is not rounded; `windowStartFl` is the same line with every operation
rounded, and the two can differ by one when the product is close to an integer. -/
def windowStart (x waveLength : α) : Option ℤ :=
  staticCastInt ((x - 0.25 * waveLength) * (kBufferSize : α))

/-- Source line 37: `end = static_cast<int>((x + quarterWaveLength) * kBufferSize)`.
Exact arithmetic; `windowEndFl` is the same line with every operation rounded. -/
def windowEnd (x waveLength : α) : Option ℤ :=
  staticCastInt ((x + 0.25 * waveLength) * (kBufferSize : α))

/-- The storage index `iNew` of source lines 40-46.  In the branch `i >= kBufferSize`
the expression `2 * kBufferSize - i - 1` is evaluated in `size_t` (modulo `2^64`) and
converted back to `int`.  In the branch `i < 0` the `int` expression `-i + 1` is taken
in `ℤ`: wherever it would overflow, its value is far above `kBufferSize` and the store
that follows is undefined in any case. -/
def reflectIndex (i : ℤ) : ℤ :=
  if i < 0 then -i + 1
  else if i ≥ (kBufferSize : ℤ) then
    wrapInt32 ((2 * (kBufferSize : ℤ) - i - 1) % 18446744073709551616)
  else i

/-- Source line 48: `distance = std::fabs((i + 0.5) / kBufferSize - x)`, the distance
between the centre of cell `i` and the centre of the wave. -/
def sampleDistance (x : α) (i : ℤ) : α :=
  |((i : α) + 0.5) / (kBufferSize : α) - x|

/-- Source line 49: `height = maxHeight * 0.5 * (std::cos(std::min(distance * M_PI /
quarterWaveLength, M_PI)) + 1.0)`. -/
def bumpHeight (cosF : α → α) (piC : α) (quarterWaveLength maxHeight distance : α) : α :=
  maxHeight * 0.5 * (cosF (min (distance * piC / quarterWaveLength) piC) + 1.0)

/-- The contribution `height` of the sample `i`, source lines 48-49. -/
def waveHeight (cosF : α → α) (piC : α) (x quarterWaveLength maxHeight : α) (i : ℤ) : α :=
  bumpHeight cosF piC quarterWaveLength maxHeight (sampleDistance x i)

/-- The store `(*heightField)[iNew] += height` of source line 50; a store outside the
array is undefined.  Exact arithmetic: the sum is not rounded, so the order of the
stores does not matter here; `addHeightFl` rounds the sum. -/
def addHeight (heightField : HeightField α) (iNew : ℤ) (height : α) :
    Option (HeightField α) :=
  if h : 0 ≤ iNew ∧ iNew < (kBufferSize : ℤ) then
    some (Function.update heightField ⟨iNew.toNat, by omega⟩
      (heightField ⟨iNew.toNat, by omega⟩ + height))
  else none

/-- One pass through the loop body, source lines 40-50. -/
def accumulateStep (cosF : α → α) (piC : α) (x quarterWaveLength maxHeight : α) (i : ℤ)
    (heightField : HeightField α) : Option (HeightField α) :=
  addHeight heightField (reflectIndex i) (waveHeight cosF piC x quarterWaveLength maxHeight i)

/-- The loop `for (int i = start; i < end; i++)` of source line 39, as `n` passes
starting at index `i`. -/
def accumulateLoop (cosF : α → α) (piC : α) (x quarterWaveLength maxHeight : α) :
    ℕ → ℤ → HeightField α → Option (HeightField α)
  | 0, _, heightField => some heightField
  | n + 1, i, heightField =>
    (accumulateStep cosF piC x quarterWaveLength maxHeight i heightField).bind
      (accumulateLoop cosF piC x quarterWaveLength maxHeight n (i + 1))

/-- The kernel `accumulateWaveToHeightField`, source lines 29-53.  The loop makes
`end - start` passes when `start < end` and none otherwise. -/
def accumulateWaveToHeightField (cosF : α → α) (piC : α) (x waveLength maxHeight : α)
    (heightField : HeightField α) : Option (HeightField α) :=
  (windowStart x waveLength).bind fun start =>
    (windowEnd x waveLength).bind fun stop =>
      accumulateLoop cosF piC x (0.25 * waveLength) maxHeight (stop - start).toNat start
        heightField

/-- A finite sequence of calls of the kernel on one field, each call given by its
arguments `(x, waveLength, maxHeight)`, in order. -/
def accumulateAll (cosF : α → α) (piC : α) (waves : List (α × α × α))
    (heightField : HeightField α) : Option (HeightField α) :=
  waves.foldlM
    (fun field wave => accumulateWaveToHeightField cosF piC wave.1 wave.2.1 wave.2.2 field)
    heightField

end Kernel

/-! ### The palette and the renderers -/

/-- Source line 13: the characters of the string literal `" .:-=+*#%@"` that the pointer
`kGrayScaleTable` refers to, with the terminating NUL the literal carries. -/
def kGrayScaleTable : List Char :=
  " .:-=+*#%@".toList ++ [Char.ofNat 0]

/-- `sizeof(const char*)`: 8 bytes on the 64-bit data models (LP64, LLP64). -/
def sizeofCharPtr : ℕ := 8

/-- `sizeof(char)`, which the language fixes at 1. -/
def sizeofChar : ℕ := 1

/-- Source line 14: `sizeof(kGrayScaleTable) / sizeof(char)`.  `kGrayScaleTable` is
declared `const char*`, so the operand of `sizeof` is a pointer, not the array of
characters. -/
def kGrayScaleTableSize : ℕ := sizeofCharPtr / sizeofChar

section Renderer

variable {α : Type} [LinearOrderedField α] [FloorRing α]

/-- The quantised index of source lines 65 and 87:
`std::min(static_cast<size_t>(std::floor(kGrayScaleTableSize * height)),
kGrayScaleTableSize - 1)`. -/
def tableIndex (height : α) : Option ℕ :=
  (staticCastSizeT ((⌊(kGrayScaleTableSize : α) * height⌋ : ℤ) : α)).map fun t =>
    min t (kGrayScaleTableSize - 1)

/-- The single-line renderer `draw`, source lines 81-99: the buffer that is printed
(after `kBufferSize` backspaces).  Reading the table beyond the literal is undefined. -/
def draw (heightField : HeightField α) : Option (List Char) :=
  (List.finRange kBufferSize).foldlM
    (fun buffer i =>
      (tableIndex (heightField i)).bind fun t =>
        (kGrayScaleTable.get? t).map fun c => buffer.set i.val c)
    (List.replicate kBufferSize ' ')

/-- Source lines 57-61 of `draw2d`: `lineHeight` blank lines are pushed onto `buffers`. -/
def initBuffers (lineHeight : ℕ) : List (List Char) :=
  (List.range lineHeight).foldl
    (fun buffers _ => buffers ++ [List.replicate kBufferSize ' ']) []

/-- The assignment `buffers[row][col] = c`. -/
def setCell (buffers : List (List Char)) (row col : ℕ) (c : Char) : List (List Char) :=
  buffers.modify (fun line => line.set col c) row

/-- The character `buffers[row][col]`, when both indices are in range. -/
def cellAt (buffers : List (List Char)) (row col : ℕ) : Option Char :=
  (buffers.get? row).bind fun line => line.get? col

/-- The multi-line renderer `draw2d`, source lines 55-79: the lines that are printed,
first line first. -/
def draw2d (heightField : HeightField α) : Option (List (List Char)) :=
  let lineHeight := kGrayScaleTableSize
  (List.range lineHeight).foldlM
    (fun buffers i =>
      (List.finRange kBufferSize).foldlM
        (fun buffers j =>
          (tableIndex (heightField j)).map fun t =>
            let t1 := if t < i then 0 else t
            setCell buffers ((lineHeight - 1) - i) j.val (if t1 = 0 then ' ' else '#'))
        buffers)
    (initBuffers lineHeight)

end Renderer

/-! ### The driver loop -/

section Driver

variable {α : Type} [LinearOrderedField α] [FloorRing α]

/-- The variables of `main` that live across iterations, source lines 108-115. -/
structure MainState (α : Type) where
  /-- Position of the first oscillator. -/
  x : α
  /-- Position of the second oscillator. -/
  y : α
  /-- Speed of the first oscillator. -/
  speedX : α
  /-- Speed of the second oscillator. -/
  speedY : α
  /-- The height field. -/
  heightField : HeightField α

/-- The state on entry to the loop, source lines 108-115; the array is declared without
an initialiser, so its contents are arbitrary. -/
def mainInit (uninitialised : HeightField α) : MainState α :=
  { x := 0.0, y := 1.0, speedX := 1.0, speedY := -0.5, heightField := uninitialised }

/-- Source lines 123-125: every entry of the field is set to `0.0` in turn. -/
def clearHeightField (heightField : HeightField α) : HeightField α :=
  (List.finRange kBufferSize).foldl (fun f k => Function.update f k 0.0) heightField

/-- Source lines 119-128 of one iteration: both oscillators are advanced, the field is
cleared and both waves are accumulated.  The resulting field is the one passed to
`draw2d` on line 129. -/
def prepareFrame (cosF : α → α) (piC : α) (s : MainState α) : Option (MainState α) :=
  let fps : α := 100
  let timeinterval : α := 1.0 / fps
  let wx := updateWave timeinterval s.x s.speedX
  let wy := updateWave timeinterval s.y s.speedY
  let cleared := clearHeightField s.heightField
  (accumulateWaveToHeightField cosF piC wx.1 0.8 0.5 cleared).bind fun h1 =>
    (accumulateWaveToHeightField cosF piC wy.1 1.2 0.4 h1).map fun h2 =>
      { x := wx.1, y := wy.1, speedX := wx.2, speedY := wy.2, heightField := h2 }

/-- One iteration of the loop of `main`, source lines 117-131: the new state and the
frame that `draw2d` prints. -/
def mainLoopBody (cosF : α → α) (piC : α) (s : MainState α) :
    Option (MainState α × List (List Char)) :=
  (prepareFrame cosF piC s).bind fun s1 =>
    (draw2d s1.heightField).map fun frame => (s1, frame)

/-- The first `n` iterations of the loop of `main`: the state reached and the frames
printed, oldest first. -/
def mainLoop (cosF : α → α) (piC : α) :
    ℕ → MainState α → Option (MainState α × List (List (List Char)))
  | 0, s => some (s, [])
  | n + 1, s =>
    (mainLoopBody cosF piC s).bind fun r =>
      (mainLoop cosF piC n r.1).map fun rest => (rest.1, r.2 :: rest.2)

end Driver

/-! ### The same functions in rounded arithmetic

The definitions above compute in exact arithmetic.  The definitions of this part take the
rounding `fl` applied to the result of every floating-point operation as a parameter, in
the order in which the source evaluates its expressions (no fused multiply-add, no
extended precision); with `fl = id` they are the exact definitions again.  `roundDouble`
is the rounding of binary64 arithmetic in the default mode. -/

section Rounded

variable {α : Type} [LinearOrderedField α] [FloorRing α]

/-- Rounding to the nearest integer, a tie going to the even neighbour. -/
def roundHalfEven (q : α) : ℤ :=
  if q - (⌊q⌋ : α) < 1 / 2 then ⌊q⌋
  else if 1 / 2 < q - (⌊q⌋ : α) then ⌊q⌋ + 1
  else if ⌊q⌋ % 2 = 0 then ⌊q⌋ else ⌊q⌋ + 1

/-- Rounding to the nearest binary floating-point number with a significand of 53 bits,
the precision of `double`, ties to even.  The exponent range is not bounded: overflow
and subnormal numbers are outside the model. -/
def roundDouble (x : α) : α :=
  if x = 0 then 0
  else (roundHalfEven (x / 2 ^ (Int.log 2 |x| - 52)) : α) * 2 ^ (Int.log 2 |x| - 52)

/-- The `double` that the macro `M_PI` of `<cmath>` denotes, `0x1.921fb54442d18p+1`. -/
def M_PI : α := 884279719003555 / 281474976710656

/-- The oscillator update, source lines 16-26, every operation rounded by `fl`. -/
def updateWaveFl (fl : α → α) (timeInterval x speed : α) : α × α :=
  let x1 := fl (x + fl (timeInterval * speed))
  let r1 : α × α :=
    if x1 > 1 then (fl (1 + fl (timeInterval * fl (speed * -1))), fl (speed * -1))
    else (x1, speed)
  if r1.1 < 0 then (fl (timeInterval * fl (r1.2 * -1)), fl (r1.2 * -1)) else r1

/-- Source line 36 with line 35 in rounded arithmetic: the product that is converted is
`fl (fl (x - fl (0.25 * waveLength)) * kBufferSize)`. -/
def windowStartFl (fl : α → α) (x waveLength : α) : Option ℤ :=
  staticCastInt (fl (fl (x - fl (0.25 * waveLength)) * (kBufferSize : α)))

/-- Source line 37 with line 35 in rounded arithmetic. -/
def windowEndFl (fl : α → α) (x waveLength : α) : Option ℤ :=
  staticCastInt (fl (fl (x + fl (0.25 * waveLength)) * (kBufferSize : α)))

/-- Source line 48 in rounded arithmetic; the conversion of `i` to `double` and `fabs`
are exact. -/
def sampleDistanceFl (fl : α → α) (x : α) (i : ℤ) : α :=
  |fl (fl (fl ((i : α) + 0.5) / (kBufferSize : α)) - x)|

/-- Source line 49 in rounded arithmetic: `maxHeight * 0.5` is formed first, then
multiplied by the rounded sum `cos (...) + 1.0`; `cosF` returns a `double`. -/
def bumpHeightFl (fl : α → α) (cosF : α → α) (piC : α)
    (quarterWaveLength maxHeight distance : α) : α :=
  fl (fl (maxHeight * 0.5) *
    fl (cosF (min (fl (fl (distance * piC) / quarterWaveLength)) piC) + 1.0))

/-- The contribution `height` of the sample `i`, source lines 48-49, in rounded
arithmetic. -/
def waveHeightFl (fl : α → α) (cosF : α → α) (piC : α) (x quarterWaveLength maxHeight : α)
    (i : ℤ) : α :=
  bumpHeightFl fl cosF piC quarterWaveLength maxHeight (sampleDistanceFl fl x i)

/-- The store `(*heightField)[iNew] += height` of source line 50 with the sum rounded. -/
def addHeightFl (fl : α → α) (heightField : HeightField α) (iNew : ℤ) (height : α) :
    Option (HeightField α) :=
  if h : 0 ≤ iNew ∧ iNew < (kBufferSize : ℤ) then
    some (Function.update heightField ⟨iNew.toNat, by omega⟩
      (fl (heightField ⟨iNew.toNat, by omega⟩ + height)))
  else none

/-- One pass through the loop body, source lines 40-50, in rounded arithmetic. -/
def accumulateStepFl (fl : α → α) (cosF : α → α) (piC : α)
    (x quarterWaveLength maxHeight : α) (i : ℤ) (heightField : HeightField α) :
    Option (HeightField α) :=
  addHeightFl fl heightField (reflectIndex i)
    (waveHeightFl fl cosF piC x quarterWaveLength maxHeight i)

/-- The loop of source line 39 in rounded arithmetic, as `n` passes starting at `i`. -/
def accumulateLoopFl (fl : α → α) (cosF : α → α) (piC : α)
    (x quarterWaveLength maxHeight : α) :
    ℕ → ℤ → HeightField α → Option (HeightField α)
  | 0, _, heightField => some heightField
  | n + 1, i, heightField =>
    (accumulateStepFl fl cosF piC x quarterWaveLength maxHeight i heightField).bind
      (accumulateLoopFl fl cosF piC x quarterWaveLength maxHeight n (i + 1))

/-- The kernel `accumulateWaveToHeightField`, source lines 29-53, in rounded
arithmetic. -/
def accumulateWaveToHeightFieldFl (fl : α → α) (cosF : α → α) (piC : α)
    (x waveLength maxHeight : α) (heightField : HeightField α) : Option (HeightField α) :=
  (windowStartFl fl x waveLength).bind fun start =>
    (windowEndFl fl x waveLength).bind fun stop =>
      accumulateLoopFl fl cosF piC x (fl (0.25 * waveLength)) maxHeight
        (stop - start).toNat start heightField

end Rounded

/-! ## Theorems -/

section Oscillator

variable {α : Type} [LinearOrderedField α]

theorem updateWave_of_gt_one (dt p s : α) (h : p + dt * s > 1) (h2 : dt * s ≤ 1) :
    updateWave dt p s = (1 - dt * s, -s) := by
  have h3 : ¬ (1 + dt * (s * -1) < 0) := by
    have : dt * (s * -1) = -(dt * s) := by ring
    rw [this]; linarith
  simp only [updateWave, h, if_true, h3, if_false]
  ext
  · simp only; ring
  · simp

theorem updateWave_of_gt_one_twice (dt p s : α) (h : p + dt * s > 1) (h2 : 1 < dt * s) :
    updateWave dt p s = (dt * s, s) := by
  have h3 : 1 + dt * (s * -1) < 0 := by
    have : dt * (s * -1) = -(dt * s) := by ring
    rw [this]; linarith
  simp only [updateWave, h, if_true, h3]
  ext <;> simp

theorem updateWave_of_lt_zero (dt p s : α) (h : p + dt * s < 0) :
    updateWave dt p s = (-(dt * s), -s) := by
  have h1 : ¬ (p + dt * s > 1) := by
    intro h'; linarith
  simp only [updateWave, h1, if_false, h, if_true]
  ext <;> simp

theorem updateWave_of_inside (dt p s : α) (h0 : 0 ≤ p + dt * s) (h1 : p + dt * s ≤ 1) :
    updateWave dt p s = (p + dt * s, s) := by
  have h1' : ¬ (p + dt * s > 1) := not_lt.mpr h1
  have h0' : ¬ (p + dt * s < 0) := not_lt.mpr h0
  simp only [updateWave, h1', if_false, h0']

end Oscillator

/-! ### Index reflection -/

theorem reflectIndex_of_neg {i : ℤ} (h : i < 0) : reflectIndex i = -i + 1 := by
  simp only [reflectIndex, h, if_true]

theorem reflectIndex_of_inside {i : ℤ} (h0 : 0 ≤ i) (h1 : i < 80) : reflectIndex i = i := by
  have h2 : ¬ (i ≥ ((kBufferSize : ℕ) : ℤ)) := by
    simp only [kBufferSize]; omega
  simp only [reflectIndex, not_lt.mpr h0, if_false, h2]

theorem reflectIndex_of_ge {i : ℤ} (h0 : 80 ≤ i) (h1 : i ≤ 2147483647) :
    reflectIndex i = 159 - i := by
  have h2 : i ≥ ((kBufferSize : ℕ) : ℤ) := by
    simp only [kBufferSize]; omega
  have h3 : ¬ (i < 0) := by omega
  simp only [reflectIndex, h3, if_false, h2, if_true, wrapInt32, kBufferSize]
  omega

/-! ### The store, the contribution of one sample and the loop -/

section StoreLemmas

variable {α : Type} [LinearOrderedField α]

theorem addHeight_of_inside (f : HeightField α) {k : ℤ} (h0 : 0 ≤ k) (h1 : k < 80) (h : α) :
    addHeight f k h =
      some (Function.update f ⟨k.toNat, by simp only [kBufferSize]; omega⟩
        (f ⟨k.toNat, by simp only [kBufferSize]; omega⟩ + h)) := by
  have hk : 0 ≤ k ∧ k < ((kBufferSize : ℕ) : ℤ) := by
    simp only [kBufferSize]; omega
  simp only [addHeight, hk, and_self, dite_true]

theorem addHeight_of_outside (f : HeightField α) {k : ℤ} (hk : k < 0 ∨ 80 ≤ k) (h : α) :
    addHeight f k h = none := by
  have hn : ¬ (0 ≤ k ∧ k < ((kBufferSize : ℕ) : ℤ)) := by
    simp only [kBufferSize]; omega
  simp only [addHeight, hn, dite_false]

theorem addHeight_apply {f g : HeightField α} {k : ℤ} {h : α} (e : addHeight f k h = some g)
    (j : Fin kBufferSize) : g j = if (j.val : ℤ) = k then f j + h else f j := by
  unfold addHeight at e
  split_ifs at e with hk
  simp only [Option.some.injEq] at e
  subst e
  by_cases hj : (j.val : ℤ) = k
  · have : j = ⟨k.toNat, by omega⟩ := by
      apply Fin.ext
      simp only
      omega
    simp only [hj, if_true]
    rw [this, Function.update_same]
  · have : j ≠ ⟨k.toNat, by omega⟩ := by
      intro hjk
      apply hj
      have := congrArg Fin.val hjk
      simp only at this
      omega
    simp only [hj, if_false]
    rw [Function.update_noteq this]

theorem addHeight_mono {f g : HeightField α} {k : ℤ} {h : α} (hh : 0 ≤ h)
    (e : addHeight f k h = some g) (j : Fin kBufferSize) : f j ≤ g j := by
  rw [addHeight_apply e j]
  split_ifs
  · exact le_add_of_nonneg_right hh
  · exact le_refl _

theorem bumpHeight_nonneg {cosF : α → α} (hcos : ∀ t, -1 ≤ cosF t) (piC q : α) {mh : α}
    (hm : 0 ≤ mh) (d : α) : 0 ≤ bumpHeight cosF piC q mh d := by
  unfold bumpHeight
  have h1 := hcos (min (d * piC / q) piC)
  have h2 : (0 : α) ≤ cosF (min (d * piC / q) piC) + 1.0 := by
    norm_num
    linarith
  have h3 : (0 : α) ≤ 0.5 := by norm_num
  exact mul_nonneg (mul_nonneg hm h3) h2

theorem accumulateLoop_succ (cosF : α → α) (piC x q mh : α) (n : ℕ) (i : ℤ)
    (f : HeightField α) :
    accumulateLoop cosF piC x q mh (n + 1) i f =
      (accumulateStep cosF piC x q mh i f).bind (accumulateLoop cosF piC x q mh n (i + 1)) :=
  rfl

theorem accumulateLoop_mono {cosF : α → α} (hcos : ∀ t, -1 ≤ cosF t) (piC x q : α) {mh : α}
    (hm : 0 ≤ mh) :
    ∀ (n : ℕ) (i : ℤ) (f g : HeightField α),
      accumulateLoop cosF piC x q mh n i f = some g → ∀ j, f j ≤ g j := by
  intro n
  induction n with
  | zero =>
    intro i f g e j
    simp only [accumulateLoop, Option.some.injEq] at e
    rw [e]
  | succ n ih =>
    intro i f g e j
    simp only [accumulateLoop] at e
    cases hstep : accumulateStep cosF piC x q mh i f with
    | none => rw [hstep] at e; simp at e
    | some f1 =>
      rw [hstep, Option.some_bind] at e
      have h1 : f j ≤ f1 j :=
        addHeight_mono (bumpHeight_nonneg hcos piC q hm _) hstep j
      exact le_trans h1 (ih (i + 1) f1 g e j)

/-- The exact effect of `n` passes of the loop that stay inside the array: every cell of
the window receives its own contribution, every other cell is untouched. -/
theorem accumulateLoop_inside (cosF : α → α) (piC x q mh : α) :
    ∀ (n : ℕ) (i : ℤ) (f : HeightField α), 0 ≤ i → i + n ≤ 80 →
      accumulateLoop cosF piC x q mh n i f =
        some (fun k => if i ≤ (k.val : ℤ) ∧ (k.val : ℤ) < i + n
          then f k + waveHeight cosF piC x q mh (k.val : ℤ) else f k) := by
  intro n
  induction n with
  | zero =>
    intro i f _ _
    simp only [accumulateLoop, Option.some.injEq]
    funext k
    have : ¬ (i ≤ (k.val : ℤ) ∧ (k.val : ℤ) < i + ((0 : ℕ) : ℤ)) := by omega
    simp only [this, if_false]
  | succ n ih =>
    intro i f h0 h1
    have hi80 : i < 80 := by omega
    simp only [accumulateLoop, accumulateStep, reflectIndex_of_inside h0 hi80]
    rw [addHeight_of_inside f h0 hi80, Option.some_bind, ih (i + 1) _ (by omega) (by omega)]
    simp only [Option.some.injEq]
    funext k
    by_cases hk : (k.val : ℤ) = i
    · have hkfin : k = ⟨i.toNat, by simp only [kBufferSize]; omega⟩ := by
        apply Fin.ext
        simp only
        omega
      have c1 : ¬ (i + 1 ≤ (k.val : ℤ) ∧ (k.val : ℤ) < i + 1 + (n : ℤ)) := by omega
      have c2 : i ≤ (k.val : ℤ) ∧ (k.val : ℤ) < i + ((n + 1 : ℕ) : ℤ) := by omega
      simp only [c1, c2, and_self, if_true, if_false]
      rw [hk, hkfin, Function.update_same]
    · have hkfin : k ≠ ⟨i.toNat, by simp only [kBufferSize]; omega⟩ := by
        intro hjk
        apply hk
        have := congrArg Fin.val hjk
        simp only at this
        omega
      rw [Function.update_noteq hkfin]
      by_cases c : i ≤ (k.val : ℤ) ∧ (k.val : ℤ) < i + ((n + 1 : ℕ) : ℤ)
      · have c1 : i + 1 ≤ (k.val : ℤ) ∧ (k.val : ℤ) < i + 1 + (n : ℤ) := by omega
        simp only [c, c1, and_self, if_true]
      · have c1 : ¬ (i + 1 ≤ (k.val : ℤ) ∧ (k.val : ℤ) < i + 1 + (n : ℤ)) := by omega
        simp only [c, c1, if_false]

theorem clearHeightField_fold (l : List (Fin kBufferSize)) :
    ∀ (f : HeightField α) (k : Fin kBufferSize),
      (l.foldl (fun g j => Function.update g j (0.0 : α)) f) k = if k ∈ l then 0 else f k := by
  induction l with
  | nil => intro f k; simp
  | cons j rest ih =>
    intro f k
    rw [List.foldl_cons, ih]
    by_cases hk : k ∈ rest
    · simp [hk]
    · by_cases hj : k = j
      · subst hj
        simp only [hk, if_false, Function.update_same, List.mem_cons, true_or, if_true]
        norm_num
      · simp only [hk, if_false, Function.update_noteq hj, List.mem_cons, hj, or_self]

theorem clearHeightField_eq (f : HeightField α) : clearHeightField f = fun _ => 0 := by
  funext k
  unfold clearHeightField
  rw [clearHeightField_fold]
  simp only [List.mem_finRange, if_true]

end StoreLemmas

/-! ### Integer conversions and the kernel -/

section KernelLemmas

variable {α : Type} [LinearOrderedField α] [FloorRing α]

theorem truncate_of_nonneg {d : α} (h : 0 ≤ d) : truncate d = ⌊d⌋ := by
  simp only [truncate, h, if_true]

theorem truncate_of_neg {d : α} (h : d < 0) : truncate d = ⌈d⌉ := by
  simp only [truncate, not_le.mpr h, if_false]

theorem truncate_intCast (z : ℤ) : truncate (z : α) = z := by
  unfold truncate
  split_ifs
  · exact Int.floor_intCast z
  · exact Int.ceil_intCast z

theorem staticCastInt_eq_some {d : α} {t : ℤ} (ht : truncate d = t)
    (hlo : -2147483648 ≤ t) (hhi : t ≤ 2147483647) : staticCastInt d = some t := by
  simp only [staticCastInt, ht, hlo, hhi, and_self, if_true]

theorem staticCastInt_some_iff {d : α} {t : ℤ} :
    staticCastInt d = some t ↔
      truncate d = t ∧ -2147483648 ≤ truncate d ∧ truncate d ≤ 2147483647 := by
  unfold staticCastInt
  split_ifs with h
  · simp only [Option.some.injEq]
    exact ⟨fun e => ⟨e, h⟩, fun e => e.1⟩
  · simp only [false_iff, not_and, reduceCtorEq]
    intro _ h1
    exact fun h2 => h ⟨h1, h2⟩

theorem accumulateWaveToHeightField_mono {cosF : α → α} (hcos : ∀ t, -1 ≤ cosF t)
    (piC x w : α) {mh : α} (hm : 0 ≤ mh) {f g : HeightField α}
    (e : accumulateWaveToHeightField cosF piC x w mh f = some g) (j : Fin kBufferSize) :
    f j ≤ g j := by
  unfold accumulateWaveToHeightField at e
  cases hs : windowStart x w with
  | none => rw [hs] at e; simp at e
  | some start =>
    cases he : windowEnd x w with
    | none => rw [hs, he] at e; simp at e
    | some stop =>
      rw [hs, he] at e
      simp only [Option.some_bind] at e
      exact accumulateLoop_mono hcos piC x _ hm _ _ f g e j

theorem accumulateAll_mono {cosF : α → α} (hcos : ∀ t, -1 ≤ cosF t) (piC : α) :
    ∀ (waves : List (α × α × α)) (f g : HeightField α),
      (∀ wave ∈ waves, 0 ≤ wave.2.2) → accumulateAll cosF piC waves f = some g →
      ∀ j, f j ≤ g j := by
  intro waves
  induction waves with
  | nil =>
    intro f g _ e j
    simp only [accumulateAll, List.foldlM_nil] at e
    have e1 : f = g := by simpa using e
    rw [e1]
  | cons wave rest ih =>
    intro f g hw e j
    simp only [accumulateAll, List.foldlM_cons] at e
    cases h1 : accumulateWaveToHeightField cosF piC wave.1 wave.2.1 wave.2.2 f with
    | none => rw [h1] at e; simp at e
    | some f1 =>
      rw [h1] at e
      have hw1 : 0 ≤ wave.2.2 := hw wave (List.mem_cons_self _ _)
      have hrest : ∀ v ∈ rest, 0 ≤ v.2.2 := fun v hv => hw v (List.mem_cons_of_mem _ hv)
      have e2 : accumulateAll cosF piC rest f1 = some g := by
        simpa [accumulateAll] using e
      exact le_trans (accumulateWaveToHeightField_mono hcos piC _ _ hw1 h1 j)
        (ih f1 g hrest e2 j)

/-- The exact effect of a call whose window lies inside the array. -/
theorem accumulate_of_window_inside (cosF : α → α) (piC x w mh : α) (f : HeightField α)
    {a b : ℤ} (hs : windowStart x w = some a) (he : windowEnd x w = some b)
    (h0 : 0 ≤ a) (hab : a ≤ b) (hb : b ≤ 80) :
    accumulateWaveToHeightField cosF piC x w mh f =
      some (fun k => if a ≤ (k.val : ℤ) ∧ (k.val : ℤ) < b
        then f k + waveHeight cosF piC x (0.25 * w) mh (k.val : ℤ) else f k) := by
  unfold accumulateWaveToHeightField
  rw [hs, he]
  simp only [Option.some_bind]
  have hn : a + (((b - a).toNat : ℕ) : ℤ) = b := by omega
  rw [accumulateLoop_inside cosF piC x (0.25 * w) mh (b - a).toNat a f h0 (by omega), hn]

end KernelLemmas

/-! ### The centred wave of the specification's scenario, in exact real arithmetic -/

theorem windowStart_centred : windowStart (0.5 : ℝ) 0.8 = some 24 := by
  unfold windowStart
  have h : ((0.5 : ℝ) - 0.25 * 0.8) * ((kBufferSize : ℕ) : ℝ) = ((24 : ℤ) : ℝ) := by
    simp only [kBufferSize]; norm_num
  rw [h]
  exact staticCastInt_eq_some (truncate_intCast 24) (by norm_num) (by norm_num)

theorem windowEnd_centred : windowEnd (0.5 : ℝ) 0.8 = some 56 := by
  unfold windowEnd
  have h : ((0.5 : ℝ) + 0.25 * 0.8) * ((kBufferSize : ℕ) : ℝ) = ((56 : ℤ) : ℝ) := by
    simp only [kBufferSize]; norm_num
  rw [h]
  exact staticCastInt_eq_some (truncate_intCast 56) (by norm_num) (by norm_num)

/-- The field produced by the centred wave `x = 0.5`, `waveLength = 0.8`,
`maxHeight = 0.5` on the zero field. -/
theorem accumulate_centred :
    accumulateWaveToHeightField Real.cos Real.pi (0.5 : ℝ) 0.8 0.5 (fun _ => 0) =
      some (fun k => if (24 : ℤ) ≤ (k.val : ℤ) ∧ (k.val : ℤ) < 56
        then 0 + waveHeight Real.cos Real.pi (0.5 : ℝ) (0.25 * 0.8) 0.5 (k.val : ℤ) else 0) :=
  accumulate_of_window_inside Real.cos Real.pi 0.5 0.8 0.5 (fun _ => 0)
    windowStart_centred windowEnd_centred (by norm_num) (by norm_num) (by norm_num)

/-- With the true cosine the bump does not increase with the distance. -/
theorem bumpHeight_real_antitone {q mh d1 d2 : ℝ} (hq : 0 < q) (hm : 0 ≤ mh)
    (h1 : 0 ≤ d1) (h12 : d1 ≤ d2) :
    bumpHeight Real.cos Real.pi q mh d2 ≤ bumpHeight Real.cos Real.pi q mh d1 := by
  unfold bumpHeight
  have hpi : 0 < Real.pi := Real.pi_pos
  have ha : 0 ≤ d1 * Real.pi / q := div_nonneg (mul_nonneg h1 hpi.le) hq.le
  have hab : d1 * Real.pi / q ≤ d2 * Real.pi / q :=
    div_le_div_of_nonneg_right (mul_le_mul_of_nonneg_right h12 hpi.le) hq.le
  have hcos : Real.cos (min (d2 * Real.pi / q) Real.pi) ≤
      Real.cos (min (d1 * Real.pi / q) Real.pi) :=
    Real.cos_le_cos_of_nonneg_of_le_pi (le_min ha hpi.le) (min_le_right _ _)
      (min_le_min_right _ hab)
  have hhalf : (0 : ℝ) ≤ mh * 0.5 := mul_nonneg hm (by norm_num)
  exact mul_le_mul_of_nonneg_left (by linarith) hhalf

theorem sampleDistance_centred_ge (i : ℤ) :
    (1 / 160 : ℝ) ≤ sampleDistance (0.5 : ℝ) i := by
  unfold sampleDistance
  simp only [kBufferSize]
  rcases le_or_lt i 39 with h | h
  · have hi : (i : ℝ) ≤ 39 := by exact_mod_cast h
    rw [abs_of_nonpos (by norm_num; linarith)]
    norm_num
    linarith
  · have hi : (40 : ℝ) ≤ (i : ℝ) := by exact_mod_cast h
    rw [abs_of_nonneg (by norm_num; linarith)]
    norm_num
    linarith

theorem sampleDistance_centred_40 : sampleDistance (0.5 : ℝ) 40 = 1 / 160 := by
  unfold sampleDistance
  simp only [kBufferSize]
  norm_num

theorem sampleDistance_centred_39 : sampleDistance (0.5 : ℝ) 39 = 1 / 160 := by
  unfold sampleDistance
  simp only [kBufferSize]
  norm_num

theorem bumpHeight_centred_peak :
    bumpHeight Real.cos Real.pi (0.25 * 0.8 : ℝ) 0.5 (1 / 160) =
      0.5 * 0.5 * (Real.cos (Real.pi / 32) + 1) := by
  unfold bumpHeight
  have h1 : (1 / 160 : ℝ) * Real.pi / (0.25 * 0.8) = Real.pi / 32 := by
    norm_num
    ring
  have h2 : min (Real.pi / 32) Real.pi = Real.pi / 32 :=
    min_eq_left (by linarith [Real.pi_pos])
  rw [h1, h2]
  norm_num

theorem cos_pi_div_32_lt_one : Real.cos (Real.pi / 32) < 1 := by
  have h := Real.cos_lt_cos_of_nonneg_of_le_pi (le_refl (0 : ℝ))
    (by linarith [Real.pi_pos] : Real.pi / 32 ≤ Real.pi) (by linarith [Real.pi_pos])
  rwa [Real.cos_zero] at h

/-- The value the centred wave leaves in cells 39 and 40, as a closed expression. -/
theorem waveHeight_centred_40 :
    waveHeight Real.cos Real.pi (0.5 : ℝ) (0.25 * 0.8) 0.5 40 =
      0.5 * 0.5 * (Real.cos (Real.pi / 32) + 1) := by
  unfold waveHeight
  rw [sampleDistance_centred_40, bumpHeight_centred_peak]

theorem waveHeight_centred_39 :
    waveHeight Real.cos Real.pi (0.5 : ℝ) (0.25 * 0.8) 0.5 39 =
      0.5 * 0.5 * (Real.cos (Real.pi / 32) + 1) := by
  unfold waveHeight
  rw [sampleDistance_centred_39, bumpHeight_centred_peak]

theorem waveHeight_centred_le (i : ℤ) :
    waveHeight Real.cos Real.pi (0.5 : ℝ) (0.25 * 0.8) 0.5 i ≤
      waveHeight Real.cos Real.pi (0.5 : ℝ) (0.25 * 0.8) 0.5 40 := by
  unfold waveHeight
  rw [sampleDistance_centred_40]
  exact bumpHeight_real_antitone (by norm_num) (by norm_num) (by norm_num)
    (sampleDistance_centred_ge i)

theorem waveHeight_centred_nonneg (i : ℤ) :
    0 ≤ waveHeight Real.cos Real.pi (0.5 : ℝ) (0.25 * 0.8) 0.5 i :=
  bumpHeight_nonneg Real.neg_one_le_cos _ _ (by norm_num) _

/-! ### The renderers -/

/-- A monadic fold every step of which returns the state it was given returns it. -/
theorem foldlM_fixed {σ β : Type} (step : σ → β → Option σ) (s0 : σ) :
    ∀ l : List β, (∀ b ∈ l, step s0 b = some s0) → l.foldlM step s0 = some s0 := by
  intro l
  induction l with
  | nil => intro _; rfl
  | cons b rest ih =>
    intro h
    rw [List.foldlM_cons, h b (List.mem_cons_self _ _)]
    exact ih (fun c hc => h c (List.mem_cons_of_mem _ hc))

theorem modify_of_fixed {β : Type} (f : β → β) :
    ∀ (l : List β) (n : ℕ), (∀ a ∈ l, f a = a) → l.modify f n = l := by
  intro l
  induction l with
  | nil => intro n _; exact List.modify_nil f n
  | cons a rest ih =>
    intro n h
    cases n with
    | zero => rw [List.modify_zero_cons, h a (List.mem_cons_self _ _)]
    | succ n =>
      rw [List.modify_succ_cons, ih n (fun c hc => h c (List.mem_cons_of_mem _ hc))]

theorem initBuffers_eq (n : ℕ) :
    initBuffers n = List.replicate n (List.replicate kBufferSize ' ') := by
  unfold initBuffers
  induction n with
  | zero => rfl
  | succ n ih => rw [List.range_succ, List.foldl_append, ih, List.replicate_succ']; rfl

theorem setCell_blank (n row col : ℕ) :
    setCell (List.replicate n (List.replicate kBufferSize ' ')) row col ' ' =
      List.replicate n (List.replicate kBufferSize ' ') := by
  unfold setCell
  apply modify_of_fixed
  intro a ha
  rw [List.eq_of_mem_replicate ha]
  exact List.set_replicate_self

section RendererLemmas

variable {α : Type} [LinearOrderedField α] [FloorRing α]

theorem staticCastSizeT_intCast {z : ℤ} (h0 : 0 ≤ z) (h1 : z < 18446744073709551616) :
    staticCastSizeT (z : α) = some z.toNat := by
  simp only [staticCastSizeT, truncate_intCast, h0, h1, and_self, if_true]

/-- The quantised index of a height `h ≥ 0` (below the range of `size_t`) is
`min (floor (kGrayScaleTableSize * h)) (kGrayScaleTableSize - 1)`. -/
theorem tableIndex_of_nonneg {h : α} (h0 : 0 ≤ h)
    (h1 : (kGrayScaleTableSize : α) * h < 18446744073709551616) :
    tableIndex h =
      some (min ⌊(kGrayScaleTableSize : α) * h⌋.toNat (kGrayScaleTableSize - 1)) := by
  have hk : (0 : α) ≤ (kGrayScaleTableSize : α) := Nat.cast_nonneg _
  have hf0 : 0 ≤ ⌊(kGrayScaleTableSize : α) * h⌋ := Int.floor_nonneg.mpr (mul_nonneg hk h0)
  have hf1 : ⌊(kGrayScaleTableSize : α) * h⌋ < 18446744073709551616 := by
    rw [Int.floor_lt]
    exact_mod_cast h1
  simp only [tableIndex, staticCastSizeT_intCast hf0 hf1, Option.map_some']

theorem tableIndex_blank {h : α} (h0 : 0 ≤ (kGrayScaleTableSize : α) * h)
    (h1 : (kGrayScaleTableSize : α) * h < 1) : tableIndex h = some 0 := by
  have hf : ⌊(kGrayScaleTableSize : α) * h⌋ = 0 := by
    rw [Int.floor_eq_iff]
    exact ⟨by simpa using h0, by simpa using h1⟩
  simp only [tableIndex, hf, Int.cast_zero]
  have : staticCastSizeT (0 : α) = some 0 := by
    have := @staticCastSizeT_intCast α _ _ 0 (le_refl 0) (by norm_num)
    simpa using this
  rw [this]
  rfl

theorem draw_of_blank (f : HeightField α) (hblank : ∀ j, tableIndex (f j) = some 0) :
    draw f = some (List.replicate kBufferSize ' ') := by
  unfold draw
  apply foldlM_fixed
  intro i _
  rw [hblank i]
  have : kGrayScaleTable.get? 0 = some ' ' := by decide
  simp only [Option.some_bind, this, Option.map_some', List.set_replicate_self]

theorem draw2d_of_blank (f : HeightField α) (hblank : ∀ j, tableIndex (f j) = some 0) :
    draw2d f =
      some (List.replicate kGrayScaleTableSize (List.replicate kBufferSize ' ')) := by
  simp only [draw2d, initBuffers_eq]
  apply foldlM_fixed
  intro i _
  apply foldlM_fixed
  intro j _
  rw [hblank j]
  simp only [Option.map_some', ite_self, if_true, setCell_blank]

end RendererLemmas

/-! ### The index window, failing inputs of the reflection, and the frame reset -/

theorem reflectIndex_in_range {i : ℤ} (h0 : -78 ≤ i) (h1 : i < 160) :
    0 ≤ reflectIndex i ∧ reflectIndex i < 80 := by
  rcases lt_or_le i 0 with hneg | hnn
  · rw [reflectIndex_of_neg hneg]; omega
  · rcases lt_or_le i 80 with hin | hout
    · rw [reflectIndex_of_inside hnn hin]; omega
    · rw [reflectIndex_of_ge hout (by omega)]; omega

section Definedness

variable {α : Type} [LinearOrderedField α]

/-- Passes of the loop over indices in `[-78, 160)` store inside the array. -/
theorem accumulateLoop_defined (cosF : α → α) (piC x q mh : α) :
    ∀ (n : ℕ) (i : ℤ) (f : HeightField α), -78 ≤ i → i + n ≤ 160 →
      ∃ g, accumulateLoop cosF piC x q mh n i f = some g := by
  intro n
  induction n with
  | zero => intro i f _ _; exact ⟨f, rfl⟩
  | succ n ih =>
    intro i f h0 h1
    have hr := reflectIndex_in_range h0 (by omega : i < 160)
    rw [accumulateLoop_succ]
    unfold accumulateStep
    rw [addHeight_of_inside f hr.1 hr.2, Option.some_bind]
    exact ih (i + 1) _ (by omega) (by omega)

end Definedness

section WindowLemmas

variable {α : Type} [LinearOrderedField α] [FloorRing α]

theorem truncate_in_int_range {p : α} (hlo : -2147483648 ≤ p) (hhi : p ≤ 2147483647) :
    -2147483648 ≤ truncate p ∧ truncate p ≤ 2147483647 := by
  rcases le_or_lt 0 p with h | h
  · rw [truncate_of_nonneg h]
    have h0 : 0 ≤ ⌊p⌋ := Int.floor_nonneg.mpr h
    have h1 : ⌊p⌋ ≤ 2147483647 := by
      have : (⌊p⌋ : α) ≤ ((2147483647 : ℤ) : α) := by
        refine le_trans (Int.floor_le p) ?_
        push_cast
        exact hhi
      exact_mod_cast this
    omega
  · rw [truncate_of_neg h]
    have h0 : ⌈p⌉ ≤ 0 := Int.ceil_le.mpr (by simpa using h.le)
    have h1 : -2147483648 ≤ ⌈p⌉ := by
      have : ((-2147483648 : ℤ) : α) ≤ (⌈p⌉ : α) := by
        refine le_trans ?_ (Int.le_ceil p)
        push_cast
        exact hlo
      exact_mod_cast this
    omega

theorem staticCastInt_of_in_range {p : α} (hlo : -2147483648 ≤ p) (hhi : p ≤ 2147483647) :
    staticCastInt p = some (truncate p) :=
  staticCastInt_eq_some rfl (truncate_in_int_range hlo hhi).1 (truncate_in_int_range hlo hhi).2

/-- A call whose window lies in `[-78, 160)` has a result. -/
theorem accumulate_defined (cosF : α → α) (piC x w mh : α) (f : HeightField α) {a b : ℤ}
    (hs : windowStart x w = some a) (he : windowEnd x w = some b) (ha : -78 ≤ a)
    (hb : b ≤ 160) : ∃ g, accumulateWaveToHeightField cosF piC x w mh f = some g := by
  unfold accumulateWaveToHeightField
  rw [hs, he]
  simp only [Option.some_bind]
  rcases le_or_lt b a with hba | hab
  · have hn : (b - a).toNat = 0 := by omega
    rw [hn]
    exact ⟨f, rfl⟩
  · exact accumulateLoop_defined cosF piC x _ mh _ a f ha (by omega)

end WindowLemmas

/-! ### Further facts about the oscillator -/

section OscillatorFacts

variable {α : Type} [LinearOrderedField α]

/-- Whatever the input, the speed returned by `updateWave` is the old speed or its
negation. -/
theorem updateWave_speed_cases (dt p s : α) :
    (updateWave dt p s).2 = s ∨ (updateWave dt p s).2 = -s := by
  rcases lt_or_le 1 (p + dt * s) with hgt | hle
  · rcases lt_or_le 1 (dt * s) with h2 | h2
    · rw [updateWave_of_gt_one_twice dt p s hgt h2]; exact Or.inl rfl
    · rw [updateWave_of_gt_one dt p s hgt h2]; exact Or.inr rfl
  · rcases lt_or_le (p + dt * s) 0 with hneg | hnn
    · rw [updateWave_of_lt_zero dt p s hneg]; exact Or.inr rfl
    · rw [updateWave_of_inside dt p s hnn hle]; exact Or.inl rfl

theorem updateWave_abs_speed (dt p s : α) : |(updateWave dt p s).2| = |s| := by
  rcases updateWave_speed_cases dt p s with h | h
  · rw [h]
  · rw [h, abs_neg]

/-- A step of at most one unit from a position in `[0,1]` ends in `[0,1]`. -/
theorem updateWave_position_mem (dt p s : α) (hp0 : 0 ≤ p) (hp1 : p ≤ 1) (hdt : 0 ≤ dt)
    (hstep : dt * |s| ≤ 1) :
    0 ≤ (updateWave dt p s).1 ∧ (updateWave dt p s).1 ≤ 1 := by
  have habs : |dt * s| ≤ 1 := by rw [abs_mul, abs_of_nonneg hdt]; exact hstep
  obtain ⟨hlo, hhi⟩ := abs_le.mp habs
  rcases lt_or_le 1 (p + dt * s) with hgt | hle
  · rw [updateWave_of_gt_one dt p s hgt hhi]
    constructor
    · simp only; linarith
    · simp only; linarith
  · rcases lt_or_le (p + dt * s) 0 with hneg | hnn
    · rw [updateWave_of_lt_zero dt p s hneg]
      constructor
      · simp only; linarith
      · simp only; linarith
    · rw [updateWave_of_inside dt p s hnn hle]
      exact ⟨hnn, hle⟩

end OscillatorFacts

/-! ### The raised-cosine bump with the true cosine -/

theorem bumpHeight_real_at_zero (q mh : ℝ) :
    bumpHeight Real.cos Real.pi q mh 0 = mh := by
  unfold bumpHeight
  have h0 : (0 : ℝ) * Real.pi / q = 0 := by simp
  rw [h0, min_eq_left Real.pi_pos.le, Real.cos_zero]
  norm_num
  ring

theorem bumpHeight_real_beyond {q d : ℝ} (mh : ℝ) (hq : 0 < q) (hd : q ≤ d) :
    bumpHeight Real.cos Real.pi q mh d = 0 := by
  unfold bumpHeight
  have h1 : Real.pi ≤ d * Real.pi / q := by
    rw [le_div_iff₀ hq]
    nlinarith [Real.pi_pos]
  rw [min_eq_right h1, Real.cos_pi]
  norm_num

theorem bumpHeight_real_mem {q mh d : ℝ} (hq : 0 < q) (hm : 0 ≤ mh) (hd : 0 ≤ d) :
    0 ≤ bumpHeight Real.cos Real.pi q mh d ∧ bumpHeight Real.cos Real.pi q mh d ≤ mh := by
  constructor
  · exact bumpHeight_nonneg Real.neg_one_le_cos _ _ hm _
  · have h := bumpHeight_real_antitone hq hm (le_refl 0) hd
    rwa [bumpHeight_real_at_zero q mh] at h

/-! ### Bounds on the window -/

section WindowBounds

variable {α : Type} [LinearOrderedField α] [FloorRing α]

theorem le_truncate {z : ℤ} {p : α} (hz : z ≤ 0) (h : (z : α) ≤ p) : z ≤ truncate p := by
  rcases le_or_lt 0 p with hp | hp
  · rw [truncate_of_nonneg hp]
    exact le_trans hz (Int.floor_nonneg.mpr hp)
  · rw [truncate_of_neg hp]
    have : (z : α) ≤ (⌈p⌉ : α) := le_trans h (Int.le_ceil p)
    exact_mod_cast this

theorem truncate_le {z : ℤ} {p : α} (hz : 0 ≤ z) (h : p ≤ (z : α)) : truncate p ≤ z := by
  rcases le_or_lt 0 p with hp | hp
  · rw [truncate_of_nonneg hp]
    have : (⌊p⌋ : α) ≤ (z : α) := le_trans (Int.floor_le p) h
    exact_mod_cast this
  · rw [truncate_of_neg hp]
    exact le_trans (Int.ceil_le.mpr (by simpa using hp.le)) hz

/-- For a centre in `[0,1]` and `0 ≤ waveLength ≤ 3.9` the window lies in `[-78, 158)`. -/
theorem window_bounds {x w : α} (hx0 : 0 ≤ x) (hx1 : x ≤ 1) (hw0 : 0 ≤ w) (hw1 : w ≤ 3.9) :
    ∃ a b : ℤ, windowStart x w = some a ∧ windowEnd x w = some b ∧ -78 ≤ a ∧ a ≤ 80 ∧
      0 ≤ b ∧ b ≤ 158 := by
  have hk : ((kBufferSize : ℕ) : α) = 80 := by simp only [kBufferSize]; norm_num
  have hw1' : w ≤ 39 / 10 := by
    have : (3.9 : α) = 39 / 10 := by norm_num
    rwa [this] at hw1
  have hq : (0.25 : α) * w = w / 4 := by
    have : (0.25 : α) = 1 / 4 := by norm_num
    rw [this]; ring
  have hs1 : ((-78 : ℤ) : α) ≤ (x - 0.25 * w) * 80 := by
    rw [hq]; push_cast; linarith
  have hs2 : (x - 0.25 * w) * 80 ≤ ((80 : ℤ) : α) := by
    rw [hq]; push_cast; linarith
  have he1 : ((0 : ℤ) : α) ≤ (x + 0.25 * w) * 80 := by
    rw [hq]; push_cast; linarith
  have he2 : (x + 0.25 * w) * 80 ≤ ((158 : ℤ) : α) := by
    rw [hq]; push_cast; linarith
  have ha1 := le_truncate (by norm_num : (-78 : ℤ) ≤ 0) hs1
  have ha2 := truncate_le (by norm_num : (0 : ℤ) ≤ 80) hs2
  have hb1 := le_truncate (le_refl (0 : ℤ)) he1
  have hb2 := truncate_le (by norm_num : (0 : ℤ) ≤ 158) he2
  refine ⟨truncate ((x - 0.25 * w) * 80), truncate ((x + 0.25 * w) * 80), ?_, ?_,
    ha1, ha2, hb1, hb2⟩
  · unfold windowStart
    rw [hk]
    exact staticCastInt_eq_some rfl (by omega) (by omega)
  · unfold windowEnd
    rw [hk]
    exact staticCastInt_eq_some rfl (by omega) (by omega)

end WindowBounds

/-! ### The cells written by `draw2d` -/

theorem cellAt_setCell (b : List (List Char)) (r c : ℕ) (ch : Char) (r1 c1 : ℕ) :
    cellAt (setCell b r c ch) r1 c1 =
      if r1 = r ∧ c1 = c then (cellAt b r1 c1).map (fun _ => ch) else cellAt b r1 c1 := by
  unfold cellAt setCell
  simp only [List.get?_eq_getElem?]
  rw [List.getElem?_modify]
  cases hrow : b[r1]? with
  | none => simp
  | some line =>
    simp only [Option.map_eq_map, Option.map_some', Option.some_bind]
    by_cases hr : r = r1
    · subst hr
      simp only [if_true, true_and, List.getElem?_set]
      by_cases hc : c = c1
      · subst hc
        simp only [if_true]
        by_cases hlen : c < line.length
        · simp [hlen]
        · simp [hlen, List.getElem?_eq_none (not_lt.mp hlen)]
      · have hc1 : ¬ c1 = c := fun h => hc h.symm
        simp only [hc, hc1, if_false]
    · have hr1 : ¬ r1 = r := fun h => hr h.symm
      simp only [hr, hr1, if_false, false_and]

theorem cellAt_blank {n r c : ℕ} (hr : r < n) (hc : c < kBufferSize) :
    cellAt (List.replicate n (List.replicate kBufferSize ' ')) r c = some ' ' := by
  unfold cellAt
  simp [List.get?_eq_getElem?, List.getElem?_replicate, hr, hc]

section Draw2dLemmas

variable {α : Type} [LinearOrderedField α] [FloorRing α]

/-- The inner loop of `draw2d` at level `i`: the cells of row `row` in the columns
visited receive their character, and nothing else changes. -/
theorem draw2d_inner (f : HeightField α) (t : Fin kBufferSize → ℕ)
    (ht : ∀ j, tableIndex (f j) = some (t j)) (row i : ℕ) :
    ∀ (l : List (Fin kBufferSize)) (b : List (List Char)),
      ∃ b1, l.foldlM
          (fun buffers j =>
            (tableIndex (f j)).map fun t0 =>
              setCell buffers row j.val
                (if (if t0 < i then 0 else t0) = 0 then ' ' else '#')) b = some b1 ∧
        b1.length = b.length ∧
        ∀ (r1 : ℕ) (c1 : Fin kBufferSize), cellAt b1 r1 c1.val =
          (cellAt b r1 c1.val).map fun old =>
            if r1 = row ∧ c1 ∈ l then
              (if (if t c1 < i then 0 else t c1) = 0 then ' ' else '#')
            else old := by
  intro l
  induction l with
  | nil =>
    intro b
    refine ⟨b, rfl, rfl, ?_⟩
    intro r1 c1
    simp
  | cons j rest ih =>
    intro b
    obtain ⟨b1, hb1, hlen, hcell⟩ :=
      ih (setCell b row j.val (if (if t j < i then 0 else t j) = 0 then ' ' else '#'))
    refine ⟨b1, ?_, ?_, ?_⟩
    · rw [List.foldlM_cons, ht j]
      exact hb1
    · rw [hlen]
      exact List.length_modify _ _ _
    · intro r1 c1
      rw [hcell r1 c1, cellAt_setCell]
      by_cases hr : r1 = row
      · by_cases hc : c1 = j
        · subst hc
          cases cellAt b r1 c1.val with
          | none => simp [hr]
          | some old => simp [hr]
        · have hv : ¬ c1.val = j.val := fun h => hc (Fin.ext h)
          cases cellAt b r1 c1.val with
          | none => simp [hr, hv]
          | some old => simp [hr, hv, hc]
      · cases cellAt b r1 c1.val with
        | none => simp [hr]
        | some old => simp [hr]

/-- The outer loop of `draw2d` over the levels in `l`: row `lineHeight - 1 - i` of every
level `i` visited receives its characters. -/
theorem draw2d_outer (f : HeightField α) (t : Fin kBufferSize → ℕ)
    (ht : ∀ j, tableIndex (f j) = some (t j)) (lineHeight : ℕ) :
    ∀ (l : List ℕ) (b : List (List Char)), (∀ i ∈ l, i < lineHeight) →
      ∃ b1, l.foldlM
          (fun buffers i =>
            (List.finRange kBufferSize).foldlM
              (fun buffers j =>
                (tableIndex (f j)).map fun t0 =>
                  setCell buffers ((lineHeight - 1) - i) j.val
                    (if (if t0 < i then 0 else t0) = 0 then ' ' else '#'))
              buffers) b = some b1 ∧
        b1.length = b.length ∧
        ∀ i, i < lineHeight → ∀ c1 : Fin kBufferSize,
          cellAt b1 ((lineHeight - 1) - i) c1.val =
            (cellAt b ((lineHeight - 1) - i) c1.val).map fun old =>
              if i ∈ l then (if (if t c1 < i then 0 else t c1) = 0 then ' ' else '#')
              else old := by
  intro l
  induction l with
  | nil =>
    intro b _
    refine ⟨b, rfl, rfl, ?_⟩
    intro i _ c1
    simp
  | cons i0 rest ih =>
    intro b hl
    have hi0 : i0 < lineHeight := hl i0 (List.mem_cons_self _ _)
    obtain ⟨b0, hb0, hlen0, hcell0⟩ :=
      draw2d_inner f t ht ((lineHeight - 1) - i0) i0 (List.finRange kBufferSize) b
    obtain ⟨b1, hb1, hlen1, hcell1⟩ :=
      ih b0 (fun i hi => hl i (List.mem_cons_of_mem _ hi))
    refine ⟨b1, ?_, ?_, ?_⟩
    · rw [List.foldlM_cons, hb0]
      exact hb1
    · rw [hlen1, hlen0]
    · intro i hi c1
      rw [hcell1 i hi c1, hcell0]
      have hrow : (lineHeight - 1 - i = lineHeight - 1 - i0) ↔ i = i0 := by omega
      by_cases hii : i = i0
      · subst hii
        cases cellAt b (lineHeight - 1 - i) c1.val with
        | none => simp
        | some old =>
          by_cases hr : i ∈ rest
          · simp [hr]
          · simp [hr, List.mem_finRange]
      · have hne : ¬ (lineHeight - 1 - i = lineHeight - 1 - i0) := fun h => hii (hrow.mp h)
        cases cellAt b (lineHeight - 1 - i) c1.val with
        | none => simp
        | some old => simp [hne, hii]

/-- The frame built by `draw2d`: it has `kGrayScaleTableSize` rows, and the cell of
level `i` (row `kGrayScaleTableSize - 1 - i`) in column `c` holds `#` unless the
quantised index of the column, forced to 0 when it is below `i`, is 0. -/
theorem draw2d_cells (f : HeightField α) (t : Fin kBufferSize → ℕ)
    (ht : ∀ j, tableIndex (f j) = some (t j)) :
    ∃ b, draw2d f = some b ∧ b.length = kGrayScaleTableSize ∧
      ∀ i, i < kGrayScaleTableSize → ∀ c : Fin kBufferSize,
        cellAt b ((kGrayScaleTableSize - 1) - i) c.val =
          some (if (if t c < i then 0 else t c) = 0 then ' ' else '#') := by
  obtain ⟨b, hb, hlen, hcell⟩ :=
    draw2d_outer f t ht kGrayScaleTableSize (List.range kGrayScaleTableSize)
      (List.replicate kGrayScaleTableSize (List.replicate kBufferSize ' '))
      (fun i hi => List.mem_range.mp hi)
  refine ⟨b, ?_, ?_, ?_⟩
  · simp only [draw2d, initBuffers_eq]
    exact hb
  · rw [hlen, List.length_replicate]
  · intro i hi c
    have hrow : kGrayScaleTableSize - 1 - i < kGrayScaleTableSize := by omega
    rw [hcell i hi c, cellAt_blank hrow c.isLt]
    simp only [Option.map_some', List.mem_range, hi, if_true]

theorem tableIndex_le {h : α} {t : ℕ} (ht : tableIndex h = some t) :
    t ≤ kGrayScaleTableSize - 1 := by
  unfold tableIndex at ht
  cases hc : staticCastSizeT ((⌊(kGrayScaleTableSize : α) * h⌋ : ℤ) : α) with
  | none => rw [hc] at ht; simp at ht
  | some v =>
    rw [hc, Option.map_some'] at ht
    simp only [Option.some.injEq] at ht
    rw [← ht]
    exact min_le_right _ _

end Draw2dLemmas

/-! ### Finite facts about the palette and the fill rule -/

theorem kGrayScaleTableSize_eq : kGrayScaleTableSize = 8 := rfl

theorem fillChar_eq (t i : ℕ) :
    (if (if t < i then 0 else t) = 0 then ' ' else '#') =
      (if i ≤ t ∧ t ≠ 0 then '#' else ' ') := by
  split_ifs with h1 h2 h3 h4 h5 <;> first | rfl | (exfalso; omega)

theorem fillChar_eq_hash_iff (t i : ℕ) :
    (if i ≤ t ∧ t ≠ 0 then '#' else ' ') = '#' ↔ (t ≠ 0 ∧ i ≤ t) := by
  split_ifs with h
  · exact ⟨fun _ => ⟨h.2, h.1⟩, fun _ => rfl⟩
  · constructor
    · intro hc
      exact absurd hc (by decide)
    · intro h2
      exact absurd ⟨h2.2, h2.1⟩ h

theorem tableIndex_lt_eight {α : Type} [LinearOrderedField α] [FloorRing α] {h : α} {t : ℕ}
    (ht : tableIndex h = some t) : t < 8 :=
  Nat.lt_succ_of_le (tableIndex_le ht)

theorem bar_count :
    ∀ t < 8, (List.range kGrayScaleTableSize).countP (fun i => decide (t ≠ 0 ∧ i ≤ t)) =
      if t = 0 then 0 else t + 1 := by
  decide

theorem palette_symbol_of_lt :
    ∀ t < 8, kGrayScaleTable.get? t ≠ none ∧ kGrayScaleTable.get? t ≠ some (Char.ofNat 0) := by
  decide

/-! ### Upper bounds on the accumulated heights -/

section UpperBounds

variable {α : Type} [LinearOrderedField α]

theorem bumpHeight_le {cosF : α → α} (hcos : ∀ t, cosF t ≤ 1) (piC q : α) {mh : α}
    (hm : 0 ≤ mh) (d : α) : bumpHeight cosF piC q mh d ≤ mh := by
  unfold bumpHeight
  have h1 := hcos (min (d * piC / q) piC)
  have h2 : cosF (min (d * piC / q) piC) + 1.0 ≤ 2 := by
    norm_num
    linarith
  have h3 : (0 : α) ≤ mh * 0.5 := mul_nonneg hm (by norm_num)
  calc mh * 0.5 * (cosF (min (d * piC / q) piC) + 1.0) ≤ mh * 0.5 * 2 :=
        mul_le_mul_of_nonneg_left h2 h3
    _ = mh := by norm_num; ring

theorem accumulateLoop_le {cosF : α → α} (hcos : ∀ t, cosF t ≤ 1) (piC x q : α) {mh : α}
    (hm : 0 ≤ mh) :
    ∀ (n : ℕ) (i : ℤ) (f g : HeightField α),
      accumulateLoop cosF piC x q mh n i f = some g → ∀ j, g j ≤ f j + (n : α) * mh := by
  intro n
  induction n with
  | zero =>
    intro i f g e j
    simp only [accumulateLoop, Option.some.injEq] at e
    rw [e]
    simp
  | succ n ih =>
    intro i f g e j
    rw [accumulateLoop_succ] at e
    cases hstep : accumulateStep cosF piC x q mh i f with
    | none => rw [hstep] at e; simp at e
    | some f1 =>
      rw [hstep, Option.some_bind] at e
      have h1 : f1 j ≤ f j + mh := by
        unfold accumulateStep at hstep
        rw [addHeight_apply hstep j]
        split_ifs
        · exact add_le_add_left (bumpHeight_le hcos piC q hm _) _
        · exact le_add_of_nonneg_right hm
      have h2 := ih (i + 1) f1 g e j
      push_cast
      linarith

end UpperBounds

section FrameBounds

variable {α : Type} [LinearOrderedField α] [FloorRing α]

/-- A call with a centre in `[0,1]` and `0 ≤ waveLength ≤ 3.9` has a result, which lies
between the old field and the old field plus `236 * maxHeight`. -/
theorem accumulate_bounds {cosF : α → α} (hcos : ∀ t, -1 ≤ cosF t ∧ cosF t ≤ 1) (piC : α)
    {x w mh : α} (hx0 : 0 ≤ x) (hx1 : x ≤ 1) (hw0 : 0 ≤ w) (hw1 : w ≤ 3.9) (hm : 0 ≤ mh)
    (f : HeightField α) :
    ∃ g, accumulateWaveToHeightField cosF piC x w mh f = some g ∧
      ∀ j, f j ≤ g j ∧ g j ≤ f j + 236 * mh := by
  obtain ⟨a, b, hs, he, ha, -, -, hb⟩ := window_bounds hx0 hx1 hw0 hw1
  obtain ⟨g, hg⟩ := accumulate_defined cosF piC x w mh f hs he ha (by omega)
  refine ⟨g, hg, fun j => ⟨?_, ?_⟩⟩
  · exact accumulateWaveToHeightField_mono (fun t => (hcos t).1) piC x w hm hg j
  · unfold accumulateWaveToHeightField at hg
    rw [hs, he] at hg
    simp only [Option.some_bind] at hg
    have h1 := accumulateLoop_le (fun t => (hcos t).2) piC x _ hm _ _ f g hg j
    have hn : (((b - a).toNat : ℕ) : α) ≤ 236 := by
      have : (b - a).toNat ≤ 236 := by omega
      exact_mod_cast this
    have h2 : (((b - a).toNat : ℕ) : α) * mh ≤ 236 * mh := mul_le_mul_of_nonneg_right hn hm
    linarith

/-- A field of non-negative values below `2^61` is rendered by `draw2d`. -/
theorem draw2d_defined (f : HeightField α)
    (hf : ∀ j, 0 ≤ f j ∧ (kGrayScaleTableSize : α) * f j < 18446744073709551616) :
    ∃ b, draw2d f = some b := by
  obtain ⟨b, hb, -⟩ := draw2d_cells f _ (fun j => tableIndex_of_nonneg (hf j).1 (hf j).2)
  exact ⟨b, hb⟩

end FrameBounds

/-! ### The invariant of the driver loop -/

section DriverLemmas

variable {α : Type} [LinearOrderedField α] [FloorRing α]

/-- One iteration from a state with both positions in `[0,1]` and speeds of magnitude
`1` and `1/2`: the iteration has a result, in a state of the same kind. -/
theorem mainLoopBody_invariant {cosF : α → α} (hcos : ∀ t, -1 ≤ cosF t ∧ cosF t ≤ 1)
    (piC : α) (s : MainState α) (hx0 : 0 ≤ s.x) (hx1 : s.x ≤ 1) (hy0 : 0 ≤ s.y)
    (hy1 : s.y ≤ 1) (hsx : |s.speedX| = 1) (hsy : |s.speedY| = 1 / 2) :
    ∃ (s1 : MainState α) (frame : List (List Char)),
      mainLoopBody cosF piC s = some (s1, frame) ∧
      0 ≤ s1.x ∧ s1.x ≤ 1 ∧ 0 ≤ s1.y ∧ s1.y ≤ 1 ∧ |s1.speedX| = 1 ∧ |s1.speedY| = 1 / 2 := by
  have hdt : (0 : α) ≤ 1.0 / 100 := by norm_num
  have hstepX : (1.0 / 100 : α) * |s.speedX| ≤ 1 := by rw [hsx]; norm_num
  have hstepY : (1.0 / 100 : α) * |s.speedY| ≤ 1 := by rw [hsy]; norm_num
  have hpx := updateWave_position_mem (1.0 / 100) s.x s.speedX hx0 hx1 hdt hstepX
  have hpy := updateWave_position_mem (1.0 / 100) s.y s.speedY hy0 hy1 hdt hstepY
  obtain ⟨g1, hg1, hb1⟩ := accumulate_bounds hcos piC hpx.1 hpx.2
    (by norm_num : (0 : α) ≤ 0.8) (by norm_num : (0.8 : α) ≤ 3.9)
    (by norm_num : (0 : α) ≤ 0.5) (fun _ => 0)
  obtain ⟨g2, hg2, hb2⟩ := accumulate_bounds hcos piC hpy.1 hpy.2
    (by norm_num : (0 : α) ≤ 1.2) (by norm_num : (1.2 : α) ≤ 3.9)
    (by norm_num : (0 : α) ≤ 0.4) g1
  have hfield : ∀ j, 0 ≤ g2 j ∧
      (kGrayScaleTableSize : α) * g2 j < 18446744073709551616 := by
    intro j
    have h1 := hb1 j
    have h2 := hb2 j
    have hk : ((kGrayScaleTableSize : ℕ) : α) = 8 := by
      rw [kGrayScaleTableSize_eq]; norm_num
    have hc1 : (236 : α) * 0.5 = 118 := by norm_num
    have hc2 : (236 : α) * 0.4 = 472 / 5 := by norm_num
    rw [hc1] at h1
    rw [hc2] at h2
    rw [hk]
    constructor
    · linarith [h1.1, h2.1]
    · linarith [h1.2, h2.2]
  obtain ⟨frame, hframe⟩ := draw2d_defined g2 hfield
  have hprep : prepareFrame cosF piC s =
      some { x := (updateWave (1.0 / 100) s.x s.speedX).1,
             y := (updateWave (1.0 / 100) s.y s.speedY).1,
             speedX := (updateWave (1.0 / 100) s.x s.speedX).2,
             speedY := (updateWave (1.0 / 100) s.y s.speedY).2,
             heightField := g2 } := by
    simp only [prepareFrame, clearHeightField_eq]
    rw [hg1, Option.some_bind, hg2]
    rfl
  refine ⟨{ x := (updateWave (1.0 / 100) s.x s.speedX).1,
             y := (updateWave (1.0 / 100) s.y s.speedY).1,
             speedX := (updateWave (1.0 / 100) s.x s.speedX).2,
             speedY := (updateWave (1.0 / 100) s.y s.speedY).2,
             heightField := g2 }, frame, ?_, hpx.1, hpx.2, hpy.1, hpy.2, ?_, ?_⟩
  · unfold mainLoopBody
    rw [hprep, Option.some_bind, hframe]
    rfl
  · simp only [updateWave_abs_speed, hsx]
  · simp only [updateWave_abs_speed, hsy]

/-- Any number of iterations from such a state has a result, in a state of the same kind,
with one frame printed per iteration. -/
theorem mainLoop_invariant {cosF : α → α} (hcos : ∀ t, -1 ≤ cosF t ∧ cosF t ≤ 1) (piC : α) :
    ∀ (n : ℕ) (s : MainState α), 0 ≤ s.x → s.x ≤ 1 → 0 ≤ s.y → s.y ≤ 1 → |s.speedX| = 1 →
      |s.speedY| = 1 / 2 →
      ∃ (s1 : MainState α) (frames : List (List (List Char))),
        mainLoop cosF piC n s = some (s1, frames) ∧ frames.length = n ∧
        0 ≤ s1.x ∧ s1.x ≤ 1 ∧ 0 ≤ s1.y ∧ s1.y ≤ 1 ∧ |s1.speedX| = 1 ∧
        |s1.speedY| = 1 / 2 := by
  intro n
  induction n with
  | zero =>
    intro s hx0 hx1 hy0 hy1 hsx hsy
    exact ⟨s, [], rfl, rfl, hx0, hx1, hy0, hy1, hsx, hsy⟩
  | succ n ih =>
    intro s hx0 hx1 hy0 hy1 hsx hsy
    obtain ⟨s1, frame, hbody, a1, a2, a3, a4, a5, a6⟩ :=
      mainLoopBody_invariant hcos piC s hx0 hx1 hy0 hy1 hsx hsy
    obtain ⟨s2, frames, hloop, hlen, b1, b2, b3, b4, b5, b6⟩ := ih s1 a1 a2 a3 a4 a5 a6
    refine ⟨s2, frame :: frames, ?_, ?_, b1, b2, b3, b4, b5, b6⟩
    · simp only [mainLoop, hbody, Option.some_bind, hloop, Option.map_some']
    · simp only [List.length_cons, hlen]

end DriverLemmas

/-! ### Evaluating the rounding of `double` arithmetic -/

section RoundingLemmas

variable {α : Type} [LinearOrderedField α] [FloorRing α]

theorem roundHalfEven_down {q : α} (f : ℤ) (h1 : (f : α) ≤ q) (h2 : q < (f : α) + 1 / 2) :
    roundHalfEven q = f := by
  have hf : ⌊q⌋ = f := by
    rw [Int.floor_eq_iff]
    exact ⟨h1, by linarith⟩
  unfold roundHalfEven
  rw [hf]
  have : q - (f : α) < 1 / 2 := by linarith
  simp only [this, if_true]

theorem roundHalfEven_up {q : α} (f : ℤ) (h1 : (f : α) + 1 / 2 < q) (h2 : q < (f : α) + 1) :
    roundHalfEven q = f + 1 := by
  have hf : ⌊q⌋ = f := by
    rw [Int.floor_eq_iff]
    exact ⟨by linarith, h2⟩
  unfold roundHalfEven
  rw [hf]
  have c1 : ¬ (q - (f : α) < 1 / 2) := by
    intro h; linarith
  have c2 : 1 / 2 < q - (f : α) := by linarith
  simp only [c1, if_false, c2, if_true]

theorem roundHalfEven_tie {q : α} (f : ℤ) (hq : q = (f : α) + 1 / 2) :
    roundHalfEven q = if f % 2 = 0 then f else f + 1 := by
  have hf : ⌊q⌋ = f := by
    rw [Int.floor_eq_iff, hq]
    constructor
    · linarith
    · linarith
  unfold roundHalfEven
  rw [hf]
  have c1 : ¬ (q - (f : α) < 1 / 2) := by
    rw [hq]; intro h; linarith
  have c2 : ¬ (1 / 2 < q - (f : α)) := by
    rw [hq]; intro h; linarith
  simp only [c1, if_false, c2]

theorem roundHalfEven_intCast (n : ℤ) : roundHalfEven (n : α) = n :=
  roundHalfEven_down n (le_refl _) (by linarith)

theorem log_two_abs_eq {x : α} {e : ℤ} (hlo : (2 : α) ^ e ≤ |x|)
    (hhi : |x| < (2 : α) ^ (e + 1)) : Int.log 2 |x| = e := by
  have hpos : (0 : α) < |x| := lt_of_lt_of_le (zpow_pos (by norm_num) e) hlo
  have h2 : (1 : ℕ) < 2 := by norm_num
  apply le_antisymm
  · have h := (@Int.lt_zpow_iff_log_lt α _ _ 2 h2 (e + 1) |x| hpos).mp
      (by exact_mod_cast hhi)
    omega
  · exact (@Int.zpow_le_iff_le_log α _ _ 2 h2 e |x| hpos).mp (by exact_mod_cast hlo)

/-- The value of `roundDouble x` for `x` in the binade `[2^e, 2^(e+1))`. -/
theorem roundDouble_eval {x : α} (e n : ℤ) (hlo : (2 : α) ^ e ≤ |x|)
    (hhi : |x| < (2 : α) ^ (e + 1)) (hn : roundHalfEven (x / 2 ^ (e - 52)) = n) :
    roundDouble x = (n : α) * 2 ^ (e - 52) := by
  have hpos : (0 : α) < |x| := lt_of_lt_of_le (zpow_pos (by norm_num) e) hlo
  have hx : x ≠ 0 := abs_pos.mp hpos
  unfold roundDouble
  rw [if_neg hx, log_two_abs_eq hlo hhi, hn]

/-- A number whose quotient by the unit in the last place is an integer is not changed
by the rounding. -/
theorem roundDouble_exact {x : α} (e n : ℤ) (hlo : (2 : α) ^ e ≤ |x|)
    (hhi : |x| < (2 : α) ^ (e + 1)) (hn : x / 2 ^ (e - 52) = (n : α)) :
    roundDouble x = x := by
  have hu : (2 : α) ^ (e - 52) ≠ 0 := ne_of_gt (zpow_pos (by norm_num) _)
  rw [roundDouble_eval e n hlo hhi (by rw [hn]; exact roundHalfEven_intCast n), ← hn,
    div_mul_cancel₀ _ hu]

theorem roundDouble_zero : roundDouble (0 : α) = 0 := by
  unfold roundDouble
  rw [if_pos rfl]

end RoundingLemmas

/-! ### Properties of the rounding: bounds, oddness, monotonicity, idempotence -/

section BinadeLemmas

variable {α : Type} [LinearOrderedField α]

theorem two_zpow_eq (L : ℤ) :
    (2 : α) ^ L = 4503599627370496 * 2 ^ (L - 52) ∧
    (2 : α) ^ (L + 1) = 9007199254740992 * 2 ^ (L - 52) := by
  have h2 : (2 : α) ≠ 0 := two_ne_zero
  constructor
  · have : (2 : α) ^ L = 2 ^ (52 : ℤ) * 2 ^ (L - 52) := by
      rw [← zpow_add₀ h2]; congr 1; ring
    rw [this]; norm_num
  · have : (2 : α) ^ (L + 1) = 2 ^ (53 : ℤ) * 2 ^ (L - 52) := by
      rw [← zpow_add₀ h2]; congr 1; ring
    rw [this]; norm_num

end BinadeLemmas

section RoundingProperties

variable {α : Type} [LinearOrderedField α] [FloorRing α]

theorem roundHalfEven_bounds (q : α) :
    ⌊q⌋ ≤ roundHalfEven q ∧ roundHalfEven q ≤ ⌊q⌋ + 1 := by
  unfold roundHalfEven
  split_ifs <;> constructor <;> omega

theorem roundHalfEven_neg (q : α) : roundHalfEven (-q) = -roundHalfEven q := by
  obtain ⟨f, hf⟩ : ∃ f : ℤ, ⌊q⌋ = f := ⟨_, rfl⟩
  have hfl : (f : α) ≤ q := by rw [← hf]; exact Int.floor_le q
  have hlt : q < (f : α) + 1 := by rw [← hf]; exact Int.lt_floor_add_one q
  rcases eq_or_lt_of_le hfl with heq | hgt
  · have h1 : roundHalfEven q = f := by
      rw [← heq]
      exact roundHalfEven_intCast f
    have h2 : roundHalfEven (-q) = -f := by
      have : -q = ((-f : ℤ) : α) := by
        rw [← heq]; push_cast; rfl
      rw [this]
      exact roundHalfEven_intCast _
    rw [h1, h2]
  · rcases lt_trichotomy q ((f : α) + 1 / 2) with hlo | hmid | hhi
    · rw [roundHalfEven_down f hfl hlo,
        roundHalfEven_up (-f - 1) (by push_cast; linarith) (by push_cast; linarith)]
      omega
    · rw [roundHalfEven_tie f hmid,
        roundHalfEven_tie (-f - 1) (by push_cast; rw [hmid]; ring)]
      split_ifs <;> omega
    · rw [roundHalfEven_up f hhi hlt,
        roundHalfEven_down (-f - 1) (by push_cast; linarith) (by push_cast; linarith)]
      omega

theorem roundHalfEven_mono {q1 q2 : α} (h : q1 ≤ q2) : roundHalfEven q1 ≤ roundHalfEven q2 := by
  have hf : ⌊q1⌋ ≤ ⌊q2⌋ := Int.floor_le_floor h
  have b1 := roundHalfEven_bounds q1
  have b2 := roundHalfEven_bounds q2
  rcases lt_or_eq_of_le hf with hlt | heq
  · omega
  · have hfl1 : ((⌊q1⌋ : ℤ) : α) ≤ q1 := Int.floor_le q1
    have hlt2 : q2 < ((⌊q1⌋ : ℤ) : α) + 1 := by rw [heq]; exact Int.lt_floor_add_one q2
    rcases lt_trichotomy q1 (((⌊q1⌋ : ℤ) : α) + 1 / 2) with hlo | hmid | hhi
    · rw [roundHalfEven_down ⌊q1⌋ hfl1 hlo]
      omega
    · rcases eq_or_lt_of_le h with he | hlt'
      · rw [he]
      · rw [roundHalfEven_up ⌊q1⌋ (by rw [← hmid]; exact hlt') hlt2]
        exact b1.2
    · rw [roundHalfEven_up ⌊q1⌋ hhi (lt_of_le_of_lt h hlt2),
        roundHalfEven_up ⌊q1⌋ (lt_of_lt_of_le hhi h) hlt2]

theorem roundDouble_neg (x : α) : roundDouble (-x) = -roundDouble x := by
  unfold roundDouble
  by_cases hx : x = 0
  · simp [hx]
  · have hnx : -x ≠ 0 := neg_ne_zero.mpr hx
    rw [if_neg hx, if_neg hnx, abs_neg, neg_div, roundHalfEven_neg]
    push_cast
    ring

/-- The rounding of a positive number is an integer multiple of the unit in the last
place of its binade, with a multiplier between `2^52` and `2^53`. -/
theorem roundDouble_pos_form {x : α} (hx : 0 < x) :
    roundDouble x = (roundHalfEven (x / 2 ^ (Int.log 2 x - 52)) : α) * 2 ^ (Int.log 2 x - 52) ∧
    4503599627370496 ≤ roundHalfEven (x / 2 ^ (Int.log 2 x - 52)) ∧
    roundHalfEven (x / 2 ^ (Int.log 2 x - 52)) ≤ 9007199254740992 := by
  have h2 : (1 : ℕ) < 2 := by norm_num
  have hu : (0 : α) < 2 ^ (Int.log 2 x - 52) := zpow_pos (by norm_num) _
  have hlo : (2 : α) ^ Int.log 2 x ≤ x := by
    have := @Int.zpow_log_le_self α _ _ 2 x h2 hx
    exact_mod_cast this
  have hhi : x < (2 : α) ^ (Int.log 2 x + 1) := by
    have := @Int.lt_zpow_succ_log_self α _ _ 2 h2 x
    exact_mod_cast this
  obtain ⟨e1, e2⟩ := @two_zpow_eq α _ (Int.log 2 x)
  rw [e1] at hlo
  rw [e2] at hhi
  refine ⟨?_, ?_, ?_⟩
  · unfold roundDouble
    rw [if_neg (ne_of_gt hx), abs_of_pos hx]
  · have h : ((4503599627370496 : ℤ) : α) ≤ x / 2 ^ (Int.log 2 x - 52) := by
      rw [le_div_iff₀ hu]; push_cast; exact hlo
    have := roundHalfEven_mono h
    rwa [roundHalfEven_intCast] at this
  · have h : x / 2 ^ (Int.log 2 x - 52) ≤ ((9007199254740992 : ℤ) : α) := by
      rw [div_le_iff₀ hu]; push_cast; exact hhi.le
    have := roundHalfEven_mono h
    rwa [roundHalfEven_intCast] at this

theorem roundDouble_pos {x : α} (hx : 0 < x) : 0 < roundDouble x := by
  obtain ⟨e, hlo, -⟩ := roundDouble_pos_form hx
  rw [e]
  have hu : (0 : α) < 2 ^ (Int.log 2 x - 52) := zpow_pos (by norm_num) _
  have : (0 : α) < (roundHalfEven (x / 2 ^ (Int.log 2 x - 52)) : α) := by
    have : (0 : ℤ) < roundHalfEven (x / 2 ^ (Int.log 2 x - 52)) := by omega
    exact_mod_cast this
  exact mul_pos this hu

theorem roundDouble_mono_pos {x y : α} (hx : 0 < x) (hxy : x ≤ y) :
    roundDouble x ≤ roundDouble y := by
  have hy : 0 < y := lt_of_lt_of_le hx hxy
  obtain ⟨ex, lx, ux⟩ := roundDouble_pos_form hx
  obtain ⟨ey, ly, uy⟩ := roundDouble_pos_form hy
  have hL : Int.log 2 x ≤ Int.log 2 y := Int.log_mono_right hx hxy
  have hux : (0 : α) < 2 ^ (Int.log 2 x - 52) := zpow_pos (by norm_num) _
  have huy : (0 : α) < 2 ^ (Int.log 2 y - 52) := zpow_pos (by norm_num) _
  rw [ex, ey]
  rcases lt_or_eq_of_le hL with hlt | heq
  · obtain ⟨-, e2⟩ := @two_zpow_eq α _ (Int.log 2 x)
    obtain ⟨e1, -⟩ := @two_zpow_eq α _ (Int.log 2 y)
    have hpow : (2 : α) ^ (Int.log 2 x + 1) ≤ 2 ^ Int.log 2 y :=
      zpow_le_zpow_right₀ (by norm_num) (by omega)
    rw [e1, e2] at hpow
    have h1 : (roundHalfEven (x / 2 ^ (Int.log 2 x - 52)) : α) ≤ 9007199254740992 := by
      exact_mod_cast ux
    have h2 : (4503599627370496 : α) ≤ (roundHalfEven (y / 2 ^ (Int.log 2 y - 52)) : α) := by
      exact_mod_cast ly
    calc (roundHalfEven (x / 2 ^ (Int.log 2 x - 52)) : α) * 2 ^ (Int.log 2 x - 52)
        ≤ 9007199254740992 * 2 ^ (Int.log 2 x - 52) := mul_le_mul_of_nonneg_right h1 hux.le
      _ ≤ 4503599627370496 * 2 ^ (Int.log 2 y - 52) := hpow
      _ ≤ (roundHalfEven (y / 2 ^ (Int.log 2 y - 52)) : α) * 2 ^ (Int.log 2 y - 52) :=
        mul_le_mul_of_nonneg_right h2 huy.le
  · rw [← heq]
    have hq : x / 2 ^ (Int.log 2 x - 52) ≤ y / 2 ^ (Int.log 2 x - 52) :=
      div_le_div_of_nonneg_right hxy hux.le
    have := roundHalfEven_mono hq
    exact mul_le_mul_of_nonneg_right (by exact_mod_cast this) hux.le

/-- The rounding `roundDouble` is monotone. -/
theorem roundDouble_mono {x y : α} (hxy : x ≤ y) : roundDouble x ≤ roundDouble y := by
  rcases lt_trichotomy 0 x with hx | hx | hx
  · exact roundDouble_mono_pos hx hxy
  · rw [← hx, roundDouble_zero]
    rcases eq_or_lt_of_le (hx ▸ hxy : (0 : α) ≤ y) with hy | hy
    · rw [← hy, roundDouble_zero]
    · exact (roundDouble_pos hy).le
  · have hnx : 0 < -x := neg_pos.mpr hx
    have hxneg : roundDouble x < 0 := by
      have := roundDouble_pos hnx
      rw [roundDouble_neg] at this
      linarith
    rcases lt_trichotomy 0 y with hy | hy | hy
    · exact le_trans hxneg.le (roundDouble_pos hy).le
    · rw [← hy, roundDouble_zero]; exact hxneg.le
    · have hny : 0 < -y := neg_pos.mpr hy
      have := roundDouble_mono_pos hny (neg_le_neg hxy)
      rw [roundDouble_neg, roundDouble_neg] at this
      linarith

theorem roundDouble_idem_pos {x : α} (hx : 0 < x) :
    roundDouble (roundDouble x) = roundDouble x := by
  obtain ⟨e, lo, hi⟩ := roundDouble_pos_form hx
  obtain ⟨e1, e2⟩ := @two_zpow_eq α _ (Int.log 2 x)
  have hu : (0 : α) < 2 ^ (Int.log 2 x - 52) := zpow_pos (by norm_num) _
  have hpos := roundDouble_pos hx
  rcases lt_or_eq_of_le hi with hlt | heq
  · apply roundDouble_exact (Int.log 2 x) (roundHalfEven (x / 2 ^ (Int.log 2 x - 52)))
    · rw [abs_of_pos hpos, e, e1]
      exact mul_le_mul_of_nonneg_right (by exact_mod_cast lo) hu.le
    · rw [abs_of_pos hpos, e, e2]
      exact mul_lt_mul_of_pos_right (by exact_mod_cast hlt) hu
    · rw [e, mul_div_assoc, div_self (ne_of_gt hu), mul_one]
  · have hval : roundDouble x = 2 ^ (Int.log 2 x + 1) := by
      rw [e, heq, e2]; push_cast; rfl
    have hp : (0 : α) < 2 ^ (Int.log 2 x + 1) := zpow_pos (by norm_num) _
    rw [hval]
    apply roundDouble_exact (Int.log 2 x + 1) 4503599627370496
    · rw [abs_of_pos hp]
    · rw [abs_of_pos hp]
      exact zpow_lt_zpow_right₀ (by norm_num) (by omega)
    · obtain ⟨e3, -⟩ := @two_zpow_eq α _ (Int.log 2 x + 1)
      have hu' : (0 : α) < 2 ^ (Int.log 2 x + 1 - 52) := zpow_pos (by norm_num) _
      rw [div_eq_iff (ne_of_gt hu')]
      push_cast
      exact e3

/-- Rounding a second time changes nothing. -/
theorem roundDouble_idem (x : α) : roundDouble (roundDouble x) = roundDouble x := by
  rcases lt_trichotomy 0 x with hx | hx | hx
  · exact roundDouble_idem_pos hx
  · rw [← hx, roundDouble_zero, roundDouble_zero]
  · have hnx : 0 < -x := neg_pos.mpr hx
    have := roundDouble_idem_pos hnx
    rw [roundDouble_neg, roundDouble_neg] at this
    exact neg_injective this

end RoundingProperties

/-! ### The rounded definitions with `fl = id` -/

section ExactInstanceField

variable {α : Type} [LinearOrderedField α]

theorem updateWaveFl_id (dt x s : α) : updateWaveFl id dt x s = updateWave dt x s := rfl

theorem addHeightFl_id (f : HeightField α) (k : ℤ) (h : α) :
    addHeightFl id f k h = addHeight f k h := rfl

theorem waveHeightFl_id (cosF : α → α) (piC x q mh : α) (i : ℤ) :
    waveHeightFl id cosF piC x q mh i = waveHeight cosF piC x q mh i := rfl

theorem accumulateLoopFl_id (cosF : α → α) (piC x q mh : α) :
    ∀ (n : ℕ) (i : ℤ) (f : HeightField α),
      accumulateLoopFl id cosF piC x q mh n i f = accumulateLoop cosF piC x q mh n i f := by
  intro n
  induction n with
  | zero => intro i f; rfl
  | succ n ih =>
    intro i f
    show (accumulateStepFl id cosF piC x q mh i f).bind
        (accumulateLoopFl id cosF piC x q mh n (i + 1)) =
      (accumulateStep cosF piC x q mh i f).bind (accumulateLoop cosF piC x q mh n (i + 1))
    have hstep : accumulateStepFl id cosF piC x q mh i f = accumulateStep cosF piC x q mh i f :=
      rfl
    rw [hstep]
    cases accumulateStep cosF piC x q mh i f with
    | none => rfl
    | some f1 => exact ih (i + 1) f1

end ExactInstanceField

section ExactInstance

variable {α : Type} [LinearOrderedField α] [FloorRing α]

theorem windowStartFl_id (x w : α) : windowStartFl id x w = windowStart x w := rfl

theorem windowEndFl_id (x w : α) : windowEndFl id x w = windowEnd x w := rfl

/-- With `fl = id` the rounded kernel is the exact kernel. -/
theorem accumulateWaveToHeightFieldFl_id (cosF : α → α) (piC x w mh : α)
    (f : HeightField α) :
    accumulateWaveToHeightFieldFl id cosF piC x w mh f =
      accumulateWaveToHeightField cosF piC x w mh f := by
  unfold accumulateWaveToHeightFieldFl accumulateWaveToHeightField
  rw [windowStartFl_id, windowEndFl_id]
  cases windowStart x w with
  | none => rfl
  | some a =>
    cases windowEnd x w with
    | none => rfl
    | some b =>
      simp only [Option.some_bind]
      exact accumulateLoopFl_id cosF piC x _ mh _ a f

end ExactInstance

/-! ### The rounded loop on a window inside the array -/

section RoundedLoop

variable {α : Type} [LinearOrderedField α]

theorem addHeightFl_of_inside (fl : α → α) (f : HeightField α) {k : ℤ} (h0 : 0 ≤ k)
    (h1 : k < 80) (h : α) :
    addHeightFl fl f k h =
      some (Function.update f ⟨k.toNat, by simp only [kBufferSize]; omega⟩
        (fl (f ⟨k.toNat, by simp only [kBufferSize]; omega⟩ + h))) := by
  have hk : 0 ≤ k ∧ k < ((kBufferSize : ℕ) : ℤ) := by
    simp only [kBufferSize]; omega
  simp only [addHeightFl, hk, and_self, dite_true]

theorem accumulateLoopFl_succ (fl cosF : α → α) (piC x q mh : α) (n : ℕ) (i : ℤ)
    (f : HeightField α) :
    accumulateLoopFl fl cosF piC x q mh (n + 1) i f =
      (accumulateStepFl fl cosF piC x q mh i f).bind
        (accumulateLoopFl fl cosF piC x q mh n (i + 1)) :=
  rfl

/-- The exact effect of `n` passes of the rounded loop that stay inside the array: every
cell of the window receives the rounded sum of its old value and its own contribution,
every other cell is untouched. -/
theorem accumulateLoopFl_inside (fl cosF : α → α) (piC x q mh : α) :
    ∀ (n : ℕ) (i : ℤ) (f : HeightField α), 0 ≤ i → i + n ≤ 80 →
      accumulateLoopFl fl cosF piC x q mh n i f =
        some (fun k => if i ≤ (k.val : ℤ) ∧ (k.val : ℤ) < i + n
          then fl (f k + waveHeightFl fl cosF piC x q mh (k.val : ℤ)) else f k) := by
  intro n
  induction n with
  | zero =>
    intro i f _ _
    simp only [accumulateLoopFl, Option.some.injEq]
    funext k
    have : ¬ (i ≤ (k.val : ℤ) ∧ (k.val : ℤ) < i + ((0 : ℕ) : ℤ)) := by omega
    simp only [this, if_false]
  | succ n ih =>
    intro i f h0 h1
    have hi80 : i < 80 := by omega
    rw [accumulateLoopFl_succ]
    unfold accumulateStepFl
    rw [reflectIndex_of_inside h0 hi80, addHeightFl_of_inside fl f h0 hi80, Option.some_bind,
      ih (i + 1) _ (by omega) (by omega)]
    simp only [Option.some.injEq]
    funext k
    by_cases hk : (k.val : ℤ) = i
    · have hkfin : k = ⟨i.toNat, by simp only [kBufferSize]; omega⟩ := by
        apply Fin.ext
        simp only
        omega
      have c1 : ¬ (i + 1 ≤ (k.val : ℤ) ∧ (k.val : ℤ) < i + 1 + (n : ℤ)) := by omega
      have c2 : i ≤ (k.val : ℤ) ∧ (k.val : ℤ) < i + ((n + 1 : ℕ) : ℤ) := by omega
      simp only [c1, c2, and_self, if_true, if_false]
      rw [hk, hkfin, Function.update_same]
    · have hkfin : k ≠ ⟨i.toNat, by simp only [kBufferSize]; omega⟩ := by
        intro hjk
        apply hk
        have := congrArg Fin.val hjk
        simp only at this
        omega
      rw [Function.update_noteq hkfin]
      by_cases c : i ≤ (k.val : ℤ) ∧ (k.val : ℤ) < i + ((n + 1 : ℕ) : ℤ)
      · have c1 : i + 1 ≤ (k.val : ℤ) ∧ (k.val : ℤ) < i + 1 + (n : ℤ) := by omega
        simp only [c, c1, and_self, if_true]
      · have c1 : ¬ (i + 1 ≤ (k.val : ℤ) ∧ (k.val : ℤ) < i + 1 + (n : ℤ)) := by omega
        simp only [c, c1, if_false]

theorem waveHeightFl_natCast (fl cosF : α → α) (piC x q mh : α) (n : ℕ) :
    waveHeightFl fl cosF piC x q mh (n : ℤ) =
      fl (fl (mh * 0.5) *
        fl (cosF (min (fl (fl (|fl (fl (fl ((n : α) + 0.5) / 80) - x)| * piC) / q)) piC)
          + 1)) := by
  have hk : ((kBufferSize : ℕ) : α) = 80 := by simp only [kBufferSize]; norm_num
  have h1 : (1.0 : α) = 1 := by norm_num
  simp only [waveHeightFl, bumpHeightFl, sampleDistanceFl, hk, h1, Int.cast_natCast]

end RoundedLoop

section RoundedKernel

variable {α : Type} [LinearOrderedField α] [FloorRing α]

/-- The exact effect of a rounded call whose window lies inside the array. -/
theorem accumulateFl_of_window_inside (fl cosF : α → α) (piC x w mh : α)
    (f : HeightField α) {a b : ℤ} (hs : windowStartFl fl x w = some a)
    (he : windowEndFl fl x w = some b) (h0 : 0 ≤ a) (hab : a ≤ b) (hb : b ≤ 80) :
    accumulateWaveToHeightFieldFl fl cosF piC x w mh f =
      some (fun k => if a ≤ (k.val : ℤ) ∧ (k.val : ℤ) < b
        then fl (f k + waveHeightFl fl cosF piC x (fl (0.25 * w)) mh (k.val : ℤ))
        else f k) := by
  unfold accumulateWaveToHeightFieldFl
  rw [hs, he]
  simp only [Option.some_bind]
  have hn : a + (((b - a).toNat : ℕ) : ℤ) = b := by omega
  rw [accumulateLoopFl_inside fl cosF piC x (fl (0.25 * w)) mh (b - a).toNat a f h0
    (by omega), hn]

end RoundedKernel

/-! ### Two calls of the kernel in rounded arithmetic -/

section RoundedHeight

variable {α : Type} [LinearOrderedField α]

/-- The height of a sample is the result of a rounded operation. -/
theorem waveHeightFl_rounded (fl cosF : α → α) (hidem : ∀ t, fl (fl t) = fl t)
    (piC x q mh : α) (i : ℤ) :
    fl (waveHeightFl fl cosF piC x q mh i) = waveHeightFl fl cosF piC x q mh i := by
  unfold waveHeightFl bumpHeightFl
  exact hidem _

end RoundedHeight

section RoundedSuperposition

variable {α : Type} [LinearOrderedField α] [FloorRing α]

/-- Two calls one after the other, both windows inside the array. -/
theorem accumulateFl_two_inside (fl cosF : α → α) (piC x1 w1 m1 x2 w2 m2 : α)
    (f : HeightField α) {a1 b1 a2 b2 : ℤ}
    (hs1 : windowStartFl fl x1 w1 = some a1) (he1 : windowEndFl fl x1 w1 = some b1)
    (h1 : 0 ≤ a1 ∧ a1 ≤ b1 ∧ b1 ≤ 80)
    (hs2 : windowStartFl fl x2 w2 = some a2) (he2 : windowEndFl fl x2 w2 = some b2)
    (h2 : 0 ≤ a2 ∧ a2 ≤ b2 ∧ b2 ≤ 80) :
    (accumulateWaveToHeightFieldFl fl cosF piC x1 w1 m1 f).bind
        (accumulateWaveToHeightFieldFl fl cosF piC x2 w2 m2) =
      some (fun k => if a2 ≤ (k.val : ℤ) ∧ (k.val : ℤ) < b2
        then fl ((if a1 ≤ (k.val : ℤ) ∧ (k.val : ℤ) < b1
            then fl (f k + waveHeightFl fl cosF piC x1 (fl (0.25 * w1)) m1 (k.val : ℤ))
            else f k) + waveHeightFl fl cosF piC x2 (fl (0.25 * w2)) m2 (k.val : ℤ))
        else (if a1 ≤ (k.val : ℤ) ∧ (k.val : ℤ) < b1
            then fl (f k + waveHeightFl fl cosF piC x1 (fl (0.25 * w1)) m1 (k.val : ℤ))
            else f k)) := by
  rw [accumulateFl_of_window_inside fl cosF piC x1 w1 m1 f hs1 he1 h1.1 h1.2.1 h1.2.2,
    Option.some_bind,
    accumulateFl_of_window_inside fl cosF piC x2 w2 m2 _ hs2 he2 h2.1 h2.2.1 h2.2.2]

end RoundedSuperposition

/-! ### Values of `roundDouble` used below -/

/-- The `double` nearest to `0.8`. -/
theorem roundDouble_lit_08 :
    roundDouble (4 / 5 : ℝ) = 3602879701896397 / 4503599627370496 := by
  have h := @roundHalfEven_up ℝ _ _ ((4 / 5 : ℝ) / 2 ^ ((-1 : ℤ) - 52))
    7205759403792793 (by norm_num) (by norm_num)
  rw [roundDouble_eval (-1) 7205759403792794 (by norm_num [abs_of_pos]) (by norm_num [abs_of_pos])
    (h.trans (by norm_num))]
  norm_num

/-- A quarter of the `double` `0.8` is a `double`. -/
theorem roundDouble_lit_quarter_08 :
    roundDouble (3602879701896397 / 18014398509481984 : ℝ) = 3602879701896397 / 18014398509481984 :=
  roundDouble_exact (-3) 7205759403792794 (by norm_num [abs_of_pos]) (by norm_num [abs_of_pos])
    (by norm_num)

/-- The difference `0.5 - 0.2` of `double`s is a `double`. -/
theorem roundDouble_lit_half_sub :
    roundDouble (5404319552844595 / 18014398509481984 : ℝ) = 5404319552844595 / 18014398509481984 :=
  roundDouble_exact (-2) 5404319552844595 (by norm_num [abs_of_pos]) (by norm_num [abs_of_pos])
    (by norm_num)

/-- The product `(0.5 - 0.2) * 80` rounds to `24`. -/
theorem roundDouble_lit_half_sub_mul :
    roundDouble (27021597764222975 / 1125899906842624 : ℝ) = 24 := by
  have h := @roundHalfEven_up ℝ _ _ ((27021597764222975 / 1125899906842624 : ℝ) / 2 ^ ((4 : ℤ) - 52))
    6755399441055743 (by norm_num) (by norm_num)
  rw [roundDouble_eval 4 6755399441055744 (by norm_num [abs_of_pos]) (by norm_num [abs_of_pos])
    (h.trans (by norm_num))]
  norm_num

/-- The sum `0.5 + 0.2` of `double`s, a tie, rounds to the even neighbour. -/
theorem roundDouble_lit_half_add :
    roundDouble (12610078956637389 / 18014398509481984 : ℝ) = 3152519739159347 / 4503599627370496 := by
  have h := @roundHalfEven_tie ℝ _ _ ((12610078956637389 / 18014398509481984 : ℝ) / 2 ^ ((-1 : ℤ) - 52))
    6305039478318694 (by norm_num)
  rw [roundDouble_eval (-1) 6305039478318694 (by norm_num [abs_of_pos]) (by norm_num [abs_of_pos])
    (h.trans (by norm_num))]
  norm_num

/-- The product `(0.5 + 0.2) * 80`, a tie, rounds to `56`. -/
theorem roundDouble_lit_half_add_mul :
    roundDouble (15762598695796735 / 281474976710656 : ℝ) = 56 := by
  have h := @roundHalfEven_tie ℝ _ _ ((15762598695796735 / 281474976710656 : ℝ) / 2 ^ ((5 : ℤ) - 52))
    7881299347898367 (by norm_num)
  rw [roundDouble_eval 5 7881299347898368 (by norm_num [abs_of_pos]) (by norm_num [abs_of_pos])
    (h.trans (by norm_num))]
  norm_num

/-- The `double` nearest to `0.01`. -/
theorem roundDouble_lit_001 :
    roundDouble (1 / 100 : ℝ) = 5764607523034235 / 576460752303423488 := by
  have h := @roundHalfEven_up ℝ _ _ ((1 / 100 : ℝ) / 2 ^ ((-7 : ℤ) - 52))
    5764607523034234 (by norm_num) (by norm_num)
  rw [roundDouble_eval (-7) 5764607523034235 (by norm_num [abs_of_pos]) (by norm_num [abs_of_pos])
    (h.trans (by norm_num))]
  norm_num

/-- The difference `0.01 - 0.2` of `double`s, rounded. -/
theorem roundDouble_lit_001_sub :
    roundDouble (-109527542937650469 / 576460752303423488 : ℝ) = -3422735716801577 / 18014398509481984 := by
  have h := @roundHalfEven_up ℝ _ _ ((-109527542937650469 / 576460752303423488 : ℝ) / 2 ^ ((-3 : ℤ) - 52))
    (-6845471433603155) (by norm_num) (by norm_num)
  rw [roundDouble_eval (-3) (-6845471433603154) (by norm_num [abs_of_neg]) (by norm_num [abs_of_neg])
    (h.trans (by norm_num))]
  norm_num

/-- The product `(0.01 - 0.2) * 80`, a tie, rounded: about `-15.2`. -/
theorem roundDouble_lit_001_sub_mul :
    roundDouble (-17113678584007885 / 1125899906842624 : ℝ) = -4278419646001971 / 281474976710656 := by
  have h := @roundHalfEven_tie ℝ _ _ ((-17113678584007885 / 1125899906842624 : ℝ) / 2 ^ ((3 : ℤ) - 52))
    (-8556839292003943) (by norm_num)
  rw [roundDouble_eval 3 (-8556839292003942) (by norm_num [abs_of_neg]) (by norm_num [abs_of_neg])
    (h.trans (by norm_num))]
  norm_num

/-- The number `1/128` is a `double`. -/
theorem roundDouble_lit_128th :
    roundDouble (1 / 128 : ℝ) = 1 / 128 :=
  roundDouble_exact (-7) 4503599627370496 (by norm_num [abs_of_pos]) (by norm_num [abs_of_pos])
    (by norm_num)

/-- The `double` nearest to `0.5 / 80`. -/
theorem roundDouble_lit_160th :
    roundDouble (1 / 160 : ℝ) = 3602879701896397 / 576460752303423488 := by
  have h := @roundHalfEven_up ℝ _ _ ((1 / 160 : ℝ) / 2 ^ ((-8 : ℤ) - 52))
    7205759403792793 (by norm_num) (by norm_num)
  rw [roundDouble_eval (-8) 7205759403792794 (by norm_num [abs_of_pos]) (by norm_num [abs_of_pos])
    (h.trans (by norm_num))]
  norm_num

/-- The difference `0.5 / 80 - 1/128` of `double`s is a `double`. -/
theorem roundDouble_lit_x_sub :
    roundDouble (-900719925474099 / 576460752303423488 : ℝ) = -900719925474099 / 576460752303423488 :=
  roundDouble_exact (-10) (-7205759403792792) (by norm_num [abs_of_neg]) (by norm_num [abs_of_neg])
    (by norm_num)

/-- The product `(0.5 / 80 - 1/128) * 80` is a `double`. -/
theorem roundDouble_lit_x_sub_mul :
    roundDouble (-4503599627370495 / 36028797018963968 : ℝ) = -4503599627370495 / 36028797018963968 :=
  roundDouble_exact (-4) (-9007199254740990) (by norm_num [abs_of_neg]) (by norm_num [abs_of_neg])
    (by norm_num)

/-- The sum `0.5 / 80 + 1/128` of `double`s is a `double`. -/
theorem roundDouble_lit_x_add :
    roundDouble (8106479329266893 / 576460752303423488 : ℝ) = 8106479329266893 / 576460752303423488 :=
  roundDouble_exact (-7) 8106479329266893 (by norm_num [abs_of_pos]) (by norm_num [abs_of_pos])
    (by norm_num)

/-- The product `(0.5 / 80 + 1/128) * 80` rounds to `9/8`. -/
theorem roundDouble_lit_x_add_mul :
    roundDouble (40532396646334465 / 36028797018963968 : ℝ) = 9 / 8 := by
  have h := @roundHalfEven_down ℝ _ _ ((40532396646334465 / 36028797018963968 : ℝ) / 2 ^ ((0 : ℤ) - 52))
    5066549580791808 (by norm_num) (by norm_num)
  rw [roundDouble_eval 0 5066549580791808 (by norm_num [abs_of_pos]) (by norm_num [abs_of_pos])
    (h.trans (by norm_num))]
  norm_num

/-- The number `1/2` is a `double`. -/
theorem roundDouble_lit_half :
    roundDouble (1 / 2 : ℝ) = 1 / 2 :=
  roundDouble_exact (-1) 4503599627370496 (by norm_num [abs_of_pos]) (by norm_num [abs_of_pos])
    (by norm_num)

/-- The number `1` is a `double`. -/
theorem roundDouble_lit_one :
    roundDouble (1 : ℝ) = 1 :=
  roundDouble_exact 0 4503599627370496 (by norm_num [abs_of_pos]) (by norm_num [abs_of_pos])
    (by norm_num)

/-- The number `2` is a `double`. -/
theorem roundDouble_lit_two :
    roundDouble (2 : ℝ) = 2 :=
  roundDouble_exact 1 4503599627370496 (by norm_num [abs_of_pos]) (by norm_num [abs_of_pos])
    (by norm_num)

/-- The number `2^53` is a `double`. -/
theorem roundDouble_lit_pow53 :
    roundDouble (9007199254740992 : ℝ) = 9007199254740992 :=
  roundDouble_exact 53 4503599627370496 (by norm_num [abs_of_pos]) (by norm_num [abs_of_pos])
    (by norm_num)

/-- The sum `2^53 + 1`, a tie, rounds to `2^53`. -/
theorem roundDouble_lit_pow53_add_one :
    roundDouble (9007199254740993 : ℝ) = 9007199254740992 := by
  have h := @roundHalfEven_tie ℝ _ _ ((9007199254740993 : ℝ) / 2 ^ ((53 : ℤ) - 52))
    4503599627370496 (by norm_num)
  rw [roundDouble_eval 53 4503599627370496 (by norm_num [abs_of_pos]) (by norm_num [abs_of_pos])
    (h.trans (by norm_num))]
  norm_num

/-- The sum `2^53 + 2` is a `double`. -/
theorem roundDouble_lit_pow53_add_two :
    roundDouble (9007199254740994 : ℝ) = 9007199254740994 :=
  roundDouble_exact 53 4503599627370497 (by norm_num [abs_of_pos]) (by norm_num [abs_of_pos])
    (by norm_num)

/-- The sum `2^53 + 3`, a tie, rounds to `2^53 + 4`. -/
theorem roundDouble_lit_pow53_add_three :
    roundDouble (9007199254740995 : ℝ) = 9007199254740996 := by
  have h := @roundHalfEven_tie ℝ _ _ ((9007199254740995 : ℝ) / 2 ^ ((53 : ℤ) - 52))
    4503599627370497 (by norm_num)
  rw [roundDouble_eval 53 4503599627370498 (by norm_num [abs_of_pos]) (by norm_num [abs_of_pos])
    (h.trans (by norm_num))]
  norm_num

/-- The step `2^-60` is a `double`. -/
theorem roundDouble_lit_tiny :
    roundDouble (1 / 1152921504606846976 : ℝ) = 1 / 1152921504606846976 :=
  roundDouble_exact (-60) 4503599627370496 (by norm_num [abs_of_pos]) (by norm_num [abs_of_pos])
    (by norm_num)

/-- In `double` arithmetic `1 + 2^-60` is `1`. -/
theorem roundDouble_lit_one_add_tiny :
    roundDouble (1152921504606846977 / 1152921504606846976 : ℝ) = 1 := by
  have h := @roundHalfEven_down ℝ _ _ ((1152921504606846977 / 1152921504606846976 : ℝ) / 2 ^ ((0 : ℤ) - 52))
    4503599627370496 (by norm_num) (by norm_num)
  rw [roundDouble_eval 0 4503599627370496 (by norm_num [abs_of_pos]) (by norm_num [abs_of_pos])
    (h.trans (by norm_num))]
  norm_num

/-- The number `-1` is a `double`. -/
theorem roundDouble_lit_neg_one :
    roundDouble (-1 : ℝ) = -1 :=
  roundDouble_exact 0 (-4503599627370496) (by norm_num [abs_of_neg]) (by norm_num [abs_of_neg])
    (by norm_num)

/-! ### Windows in `double` arithmetic -/

theorem roundDouble_08 : roundDouble (0.8 : ℝ) = 3602879701896397 / 4503599627370496 := by
  rw [show (0.8 : ℝ) = 4 / 5 by norm_num]
  exact roundDouble_lit_08

/-- The quarter wavelength of the `double` `0.8`. -/
theorem quarter_double_08 :
    roundDouble ((0.25 : ℝ) * roundDouble 0.8) = 3602879701896397 / 18014398509481984 := by
  rw [roundDouble_08, show (0.25 : ℝ) * (3602879701896397 / 4503599627370496) =
    3602879701896397 / 18014398509481984 by norm_num]
  exact roundDouble_lit_quarter_08

/-- In `double` arithmetic the product `(0.5 - 0.2) * 80` that line 36 converts for the
centred wave `x = 0.5`, `waveLength = 0.8` is `24.0`. -/
theorem startProduct_double_centred :
    roundDouble (roundDouble ((0.5 : ℝ) - roundDouble (0.25 * roundDouble 0.8)) * 80) = 24 := by
  rw [quarter_double_08,
    show (0.5 : ℝ) - 3602879701896397 / 18014398509481984 = 5404319552844595 / 18014398509481984 by norm_num,
    roundDouble_lit_half_sub,
    show (5404319552844595 / 18014398509481984 : ℝ) * 80 = 27021597764222975 / 1125899906842624 by norm_num,
    roundDouble_lit_half_sub_mul]

/-- In `double` arithmetic the product `(0.5 + 0.2) * 80` of line 37 is `56.0`. -/
theorem endProduct_double_centred :
    roundDouble (roundDouble ((0.5 : ℝ) + roundDouble (0.25 * roundDouble 0.8)) * 80) = 56 := by
  rw [quarter_double_08,
    show (0.5 : ℝ) + 3602879701896397 / 18014398509481984 = 12610078956637389 / 18014398509481984 by norm_num,
    roundDouble_lit_half_add,
    show (3152519739159347 / 4503599627370496 : ℝ) * 80 = 15762598695796735 / 281474976710656 by norm_num,
    roundDouble_lit_half_add_mul]

/-- In `double` arithmetic the window of the centred wave `x = 0.5`, `waveLength = 0.8`
is `[24, 56)`. -/
theorem windowStartFl_double_centred :
    windowStartFl roundDouble (0.5 : ℝ) (roundDouble 0.8) = some 24 := by
  unfold windowStartFl
  have hk : ((kBufferSize : ℕ) : ℝ) = 80 := by simp only [kBufferSize]; norm_num
  rw [hk, startProduct_double_centred, show (24 : ℝ) = ((24 : ℤ) : ℝ) by norm_num]
  exact staticCastInt_eq_some (truncate_intCast 24) (by norm_num) (by norm_num)

theorem windowEndFl_double_centred :
    windowEndFl roundDouble (0.5 : ℝ) (roundDouble 0.8) = some 56 := by
  unfold windowEndFl
  have hk : ((kBufferSize : ℕ) : ℝ) = 80 := by simp only [kBufferSize]; norm_num
  rw [hk, endProduct_double_centred, show (56 : ℝ) = ((56 : ℤ) : ℝ) by norm_num]
  exact staticCastInt_eq_some (truncate_intCast 56) (by norm_num) (by norm_num)

/-- The product that line 36 converts for the `double`s `x = 0.01` and
`waveLength = 0.8`: about `-15.2`. -/
theorem startProduct_double_001 :
    roundDouble (roundDouble (roundDouble (0.01 : ℝ) - roundDouble (0.25 * roundDouble 0.8)) * 80) =
      -4278419646001971 / 281474976710656 := by
  rw [quarter_double_08, show (0.01 : ℝ) = 1 / 100 by norm_num, roundDouble_lit_001,
    show (5764607523034235 / 576460752303423488 : ℝ) - 3602879701896397 / 18014398509481984 =
      -109527542937650469 / 576460752303423488 by norm_num,
    roundDouble_lit_001_sub,
    show (-3422735716801577 / 18014398509481984 : ℝ) * 80 = -17113678584007885 / 1125899906842624 by norm_num,
    roundDouble_lit_001_sub_mul]

/-- The quarter wavelength of `waveLength = 1/32`. -/
theorem quarter_double_32 : roundDouble ((0.25 : ℝ) * (1 / 32)) = 1 / 128 := by
  rw [show (0.25 : ℝ) * (1 / 32) = 1 / 128 by norm_num]
  exact roundDouble_lit_128th

/-- In `double` arithmetic the window of the wave centred at the `double` `0.5 / 80` with
`waveLength = 1/32` is `[0, 1)`. -/
theorem windowStartFl_double_cell :
    windowStartFl roundDouble (3602879701896397 / 576460752303423488 : ℝ) (1 / 32) = some 0 := by
  unfold windowStartFl
  have hk : ((kBufferSize : ℕ) : ℝ) = 80 := by simp only [kBufferSize]; norm_num
  rw [quarter_double_32, hk,
    show (3602879701896397 / 576460752303423488 : ℝ) - 1 / 128 = -900719925474099 / 576460752303423488 by norm_num,
    roundDouble_lit_x_sub,
    show (-900719925474099 / 576460752303423488 : ℝ) * 80 = -4503599627370495 / 36028797018963968 by norm_num,
    roundDouble_lit_x_sub_mul]
  have ht : truncate (-4503599627370495 / 36028797018963968 : ℝ) = 0 := by
    rw [truncate_of_neg (by norm_num), Int.ceil_eq_iff]
    norm_num
  exact staticCastInt_eq_some ht (by norm_num) (by norm_num)

theorem windowEndFl_double_cell :
    windowEndFl roundDouble (3602879701896397 / 576460752303423488 : ℝ) (1 / 32) = some 1 := by
  unfold windowEndFl
  have hk : ((kBufferSize : ℕ) : ℝ) = 80 := by simp only [kBufferSize]; norm_num
  rw [quarter_double_32, hk,
    show (3602879701896397 / 576460752303423488 : ℝ) + 1 / 128 = 8106479329266893 / 576460752303423488 by norm_num,
    roundDouble_lit_x_add,
    show (8106479329266893 / 576460752303423488 : ℝ) * 80 = 40532396646334465 / 36028797018963968 by norm_num,
    roundDouble_lit_x_add_mul]
  have ht : truncate (9 / 8 : ℝ) = 1 := by
    rw [truncate_of_nonneg (by norm_num), Int.floor_eq_iff]
    norm_num
  exact staticCastInt_eq_some ht (by norm_num) (by norm_num)

/-- In `double` arithmetic the sample 0 of a wave centred at the `double` `0.00625`, the
centre `(0 + 0.5) / 80` of cell 0 as the code computes it, is at distance 0 and has the
height `maxHeight * 0.5 * 2.0`, whatever the quarter wavelength. -/
theorem waveHeightFl_double_cell (q mh : ℝ) :
    waveHeightFl roundDouble (fun t => roundDouble (Real.cos t)) M_PI
      (roundDouble (0.00625 : ℝ)) q mh 0 = roundDouble (roundDouble (mh * 0.5) * 2) := by
  have hk : ((kBufferSize : ℕ) : ℝ) = 80 := by simp only [kBufferSize]; norm_num
  have hx : roundDouble (0.00625 : ℝ) = 3602879701896397 / 576460752303423488 := by
    rw [show (0.00625 : ℝ) = 1 / 160 by norm_num]
    exact roundDouble_lit_160th
  have h1 : roundDouble (((0 : ℤ) : ℝ) + 0.5) = 1 / 2 := by
    rw [show ((0 : ℤ) : ℝ) + 0.5 = 1 / 2 by norm_num]
    exact roundDouble_lit_half
  have h2 : roundDouble ((1 / 2 : ℝ) / 80) = 3602879701896397 / 576460752303423488 := by
    rw [show (1 / 2 : ℝ) / 80 = 1 / 160 by norm_num]
    exact roundDouble_lit_160th
  have hpi : (0 : ℝ) ≤ M_PI := by unfold M_PI; norm_num
  have h3 : roundDouble ((1 : ℝ) + 1.0) = 2 := by
    rw [show (1 : ℝ) + 1.0 = 2 by norm_num]
    exact roundDouble_lit_two
  unfold waveHeightFl bumpHeightFl sampleDistanceFl
  rw [hk, hx, h1, h2, sub_self, roundDouble_zero, abs_zero, zero_mul, roundDouble_zero,
    zero_div, roundDouble_zero, min_eq_left hpi]
  dsimp only
  rw [Real.cos_zero, roundDouble_lit_one, h3]

/-- In `double` arithmetic the window of the wave centred at the `double` `0.00625` with
`waveLength = 1/32` is the single cell `[0, 1)`. -/
theorem window_double_cell :
    windowStartFl roundDouble (roundDouble (0.00625 : ℝ)) (1 / 32) = some 0 ∧
    windowEndFl roundDouble (roundDouble (0.00625 : ℝ)) (1 / 32) = some 1 := by
  have hx : roundDouble (0.00625 : ℝ) = 3602879701896397 / 576460752303423488 := by
    rw [show (0.00625 : ℝ) = 1 / 160 by norm_num]
    exact roundDouble_lit_160th
  rw [hx]
  exact ⟨windowStartFl_double_cell, windowEndFl_double_cell⟩

/-! ### The oscillator in rounded arithmetic -/

section RoundedOscillator

variable {α : Type} [LinearOrderedField α]

/-- The three outcomes of `updateWaveFl` for a step of at most one unit from a position
in `[0,1]`, under a rounding that is monotone, odd and exact at 0 and 1, for a speed that
is a floating-point number. -/
theorem updateWaveFl_cases (fl : α → α) (hmono : ∀ a b, a ≤ b → fl a ≤ fl b)
    (hzero : fl 0 = 0) (hone : fl 1 = 1) (hneg : ∀ a, fl (-a) = -fl a) (dt p s : α)
    (hs : fl s = s) (hp0 : 0 ≤ p) (hp1 : p ≤ 1) (hdt : 0 ≤ dt) (hstep : dt * |s| ≤ 1) :
    (fl (p + fl (dt * s)) > 1 →
      updateWaveFl fl dt p s = (fl (1 - fl (dt * s)), -s) ∧
        0 ≤ fl (1 - fl (dt * s)) ∧ fl (1 - fl (dt * s)) ≤ 1) ∧
    (fl (p + fl (dt * s)) < 0 →
      updateWaveFl fl dt p s = (-fl (dt * s), -s) ∧
        0 ≤ -fl (dt * s) ∧ -fl (dt * s) ≤ 1) ∧
    (¬ (fl (p + fl (dt * s)) > 1 ∨ fl (p + fl (dt * s)) < 0) →
      updateWaveFl fl dt p s = (fl (p + fl (dt * s)), s)) := by
  have habs : |dt * s| ≤ 1 := by rw [abs_mul, abs_of_nonneg hdt]; exact hstep
  obtain ⟨hlo, hhi⟩ := abs_le.mp habs
  have hr1 : fl (dt * s) ≤ 1 := by
    have := hmono _ _ hhi
    rwa [hone] at this
  have hr0 : -1 ≤ fl (dt * s) := by
    have := hmono _ _ hlo
    rwa [hneg, hone] at this
  have hns : fl (s * -1) = -s := by
    rw [mul_neg_one, hneg, hs]
  have hnr : fl (dt * -s) = -fl (dt * s) := by
    rw [mul_neg, hneg]
  refine ⟨?_, ?_, ?_⟩
  · intro hgt
    have hsum : 1 < p + fl (dt * s) := by
      by_contra hcon
      have := hmono _ _ (not_lt.mp hcon)
      rw [hone] at this
      exact absurd hgt (not_lt.mpr this)
    have hrpos : 0 ≤ 1 - fl (dt * s) := by linarith
    have hrle : 1 - fl (dt * s) ≤ 1 := by linarith
    have h0 : 0 ≤ fl (1 - fl (dt * s)) := by
      have := hmono _ _ hrpos
      rwa [hzero] at this
    have h1 : fl (1 - fl (dt * s)) ≤ 1 := by
      have := hmono _ _ hrle
      rwa [hone] at this
    refine ⟨?_, h0, h1⟩
    have hx : fl (1 + fl (dt * -s)) = fl (1 - fl (dt * s)) := by
      rw [hnr, sub_eq_add_neg]
    simp only [updateWaveFl, hgt, if_true, hns, hx, not_lt.mpr h0, if_false]
  · intro hlt
    have hsum : p + fl (dt * s) < 0 := by
      by_contra hcon
      have := hmono _ _ (not_lt.mp hcon)
      rw [hzero] at this
      exact absurd hlt (not_lt.mpr this)
    have hngt : ¬ (fl (p + fl (dt * s)) > 1) := by
      intro h; linarith
    refine ⟨?_, by linarith, by linarith⟩
    simp only [updateWaveFl, hngt, if_false, hlt, if_true, hns, hnr]
  · intro hin
    have hngt : ¬ (fl (p + fl (dt * s)) > 1) := fun h => hin (Or.inl h)
    have hnlt : ¬ (fl (p + fl (dt * s)) < 0) := fun h => hin (Or.inr h)
    simp only [updateWaveFl, hngt, if_false, hnlt]

end RoundedOscillator

/-! ### The claims -/

/-- C1 (counterexample): for the position `p = 1`, the speed `s = 1` and the time step
`dt = 2^-60`, all three `double`s with `dt * |s| ≤ 1`, the projected position
`p + dt * s = 1 + 2^-60` is greater than 1, but the sum the code forms in `double`
arithmetic is `1.0`, neither check fires, and the call returns the position `1` with the
speed `1`, which is not `-s`. -/
theorem updateWave_double_misses_bounce :
    (0 : ℝ) ≤ 1 ∧ (1 : ℝ) ≤ 1 ∧ (0 : ℝ) ≤ 1 / 1152921504606846976 ∧
    (1 / 1152921504606846976 : ℝ) * |1| ≤ 1 ∧
    (1 : ℝ) + 1 / 1152921504606846976 * 1 > 1 ∧
    updateWaveFl roundDouble (1 / 1152921504606846976 : ℝ) 1 1 = (1, 1) ∧
    ¬ ((updateWaveFl roundDouble (1 / 1152921504606846976 : ℝ) 1 1).2 = -1 ↔
      ((1 : ℝ) + 1 / 1152921504606846976 * 1 > 1 ∨
        (1 : ℝ) + 1 / 1152921504606846976 * 1 < 0)) := by
  have e1 : roundDouble ((1 / 1152921504606846976 : ℝ) * 1) = 1 / 1152921504606846976 := by
    rw [mul_one]; exact roundDouble_lit_tiny
  have e2 : roundDouble ((1 : ℝ) + 1 / 1152921504606846976) = 1 := by
    have h : (1 : ℝ) + 1 / 1152921504606846976 =
        1152921504606846977 / 1152921504606846976 := by norm_num
    rw [h]; exact roundDouble_lit_one_add_tiny
  have hval : updateWaveFl roundDouble (1 / 1152921504606846976 : ℝ) 1 1 = (1, 1) := by
    simp only [updateWaveFl, e1, e2]
    norm_num
  refine ⟨by norm_num, le_refl _, by norm_num, by norm_num, by norm_num, hval, ?_⟩
  rw [hval]
  norm_num

/-- C1 (amended): in the arithmetic of the code, `fl` being the rounding of each
floating-point operation (monotone, odd, exact at 0 and 1), for every position `p` with
`0 ≤ p ≤ 1`, every time step `dt ≥ 0` and every speed `s` (a floating-point number) with
`dt * |s| ≤ 1`, the new position lies in `[0,1]`; when the projected position as the code
computes it, `fl (p + fl (dt * s))`, is `> 1` or `< 0` the new speed is `-s`; otherwise
the speed is unchanged and the new position is that computed sum; and for `s ≠ 0` the
new speed is `-s` exactly when the computed projected position is outside `[0,1]`. -/
theorem updateWaveFl_keeps_range {α : Type} [LinearOrderedField α] (fl : α → α)
    (hmono : ∀ a b, a ≤ b → fl a ≤ fl b) (hzero : fl 0 = 0) (hone : fl 1 = 1)
    (hneg : ∀ a, fl (-a) = -fl a) (dt p s : α) (hs : fl s = s)
    (hp0 : 0 ≤ p) (hp1 : p ≤ 1) (hdt : 0 ≤ dt) (hstep : dt * |s| ≤ 1) :
    0 ≤ (updateWaveFl fl dt p s).1 ∧ (updateWaveFl fl dt p s).1 ≤ 1 ∧
    ((fl (p + fl (dt * s)) > 1 ∨ fl (p + fl (dt * s)) < 0) →
      (updateWaveFl fl dt p s).2 = -s) ∧
    (¬ (fl (p + fl (dt * s)) > 1 ∨ fl (p + fl (dt * s)) < 0) →
      updateWaveFl fl dt p s = (fl (p + fl (dt * s)), s)) ∧
    (s ≠ 0 → ((updateWaveFl fl dt p s).2 = -s ↔
      (fl (p + fl (dt * s)) > 1 ∨ fl (p + fl (dt * s)) < 0))) := by
  obtain ⟨hgt, hlt, hin⟩ :=
    updateWaveFl_cases fl hmono hzero hone hneg dt p s hs hp0 hp1 hdt hstep
  have hout : (fl (p + fl (dt * s)) > 1 ∨ fl (p + fl (dt * s)) < 0) →
      (updateWaveFl fl dt p s).2 = -s := by
    rintro (h | h)
    · rw [(hgt h).1]
    · rw [(hlt h).1]
  refine ⟨?_, ?_, hout, hin, ?_⟩
  · by_cases h1 : fl (p + fl (dt * s)) > 1
    · rw [(hgt h1).1]; exact (hgt h1).2.1
    · by_cases h2 : fl (p + fl (dt * s)) < 0
      · rw [(hlt h2).1]; exact (hlt h2).2.1
      · rw [hin (fun h => h.elim h1 h2)]; exact not_lt.mp h2
  · by_cases h1 : fl (p + fl (dt * s)) > 1
    · rw [(hgt h1).1]; exact (hgt h1).2.2
    · by_cases h2 : fl (p + fl (dt * s)) < 0
      · rw [(hlt h2).1]; exact (hlt h2).2.2
      · rw [hin (fun h => h.elim h1 h2)]; exact not_lt.mp h1
  · intro hs0
    refine ⟨fun h => ?_, hout⟩
    by_contra hcon
    rw [hin hcon] at h
    have h2 : s + s = 0 := by
      have h3 : s = -s := h
      linarith
    have h4 : s = 0 := by linarith
    exact hs0 h4

/-- C1 (witness): `double` arithmetic with `p = 1`, `s = 1`, `dt = 1/2`, a step over the
right boundary. -/
theorem updateWaveFl_keeps_range_witness :
    (∀ a b : ℝ, a ≤ b → roundDouble a ≤ roundDouble b) ∧ roundDouble (0 : ℝ) = 0 ∧
    roundDouble (1 : ℝ) = 1 ∧ (∀ a : ℝ, roundDouble (-a) = -roundDouble a) ∧
    (0 : ℝ) ≤ 1 ∧ (1 : ℝ) ≤ 1 ∧ (0 : ℝ) ≤ 1 / 2 ∧ (1 / 2 : ℝ) * |1| ≤ 1 ∧
    0 ≤ (updateWaveFl roundDouble (1 / 2 : ℝ) 1 1).1 ∧
    (updateWaveFl roundDouble (1 / 2 : ℝ) 1 1).1 ≤ 1 ∧
    ((roundDouble ((1 : ℝ) + roundDouble (1 / 2 * 1)) > 1 ∨
        roundDouble ((1 : ℝ) + roundDouble (1 / 2 * 1)) < 0) →
      (updateWaveFl roundDouble (1 / 2 : ℝ) 1 1).2 = -1) ∧
    (¬ (roundDouble ((1 : ℝ) + roundDouble (1 / 2 * 1)) > 1 ∨
        roundDouble ((1 : ℝ) + roundDouble (1 / 2 * 1)) < 0) →
      updateWaveFl roundDouble (1 / 2 : ℝ) 1 1 =
        (roundDouble ((1 : ℝ) + roundDouble (1 / 2 * 1)), 1)) ∧
    ((1 : ℝ) ≠ 0 → ((updateWaveFl roundDouble (1 / 2 : ℝ) 1 1).2 = -1 ↔
      (roundDouble ((1 : ℝ) + roundDouble (1 / 2 * 1)) > 1 ∨
        roundDouble ((1 : ℝ) + roundDouble (1 / 2 * 1)) < 0))) :=
  ⟨fun _ _ h => roundDouble_mono h, roundDouble_zero, roundDouble_lit_one, roundDouble_neg,
    by norm_num, le_refl _, by norm_num, by norm_num,
    updateWaveFl_keeps_range roundDouble (fun _ _ h => roundDouble_mono h) roundDouble_zero
      roundDouble_lit_one roundDouble_neg (1 / 2 : ℝ) 1 1 roundDouble_lit_one (by norm_num)
      (le_refl _) (by norm_num) (by norm_num)⟩

/-- C3: provided the cosine supplied to the kernel never falls below `-1`, a call of
`accumulateWaveToHeightField` with `maxHeight ≥ 0` leaves every entry of the field at
least as large as before, for every `x` and `waveLength`; and after any finite sequence
of such calls on the zero field every entry is non-negative.  (The statement is about
the calls that have a result, which excludes those that store outside the array; every
call whose window `[start, end)` lies in `[-78, 160)` has one.) -/
theorem accumulate_never_decreases {α : Type} [LinearOrderedField α] [FloorRing α]
    (cosF : α → α) (piC : α) (hcos : ∀ t, -1 ≤ cosF t) :
    (∀ (x w mh : α) (f g : HeightField α), 0 ≤ mh →
      accumulateWaveToHeightField cosF piC x w mh f = some g → ∀ k, f k ≤ g k) ∧
    (∀ (waves : List (α × α × α)) (g : HeightField α), (∀ wave ∈ waves, 0 ≤ wave.2.2) →
      accumulateAll cosF piC waves (fun _ => 0) = some g → ∀ k, 0 ≤ g k) ∧
    (∀ (x w mh : α) (f : HeightField α) (a b : ℤ), windowStart x w = some a →
      windowEnd x w = some b → -78 ≤ a → b ≤ 160 →
      ∃ g, accumulateWaveToHeightField cosF piC x w mh f = some g) := by
  refine ⟨?_, ?_, ?_⟩
  · intro x w mh f g hm e k
    exact accumulateWaveToHeightField_mono hcos piC x w hm e k
  · intro waves g hw e k
    exact accumulateAll_mono hcos piC waves (fun _ => 0) g hw e k
  · intro x w mh f a b hs he ha hb
    exact accumulate_defined cosF piC x w mh f hs he ha hb

/-- C3 (witness): the centred wave `x = 0.5`, `waveLength = 0.8`, `maxHeight = 0.5` with
the real cosine is a call that has a result, and no entry of the zero field decreases. -/
theorem accumulate_never_decreases_witness :
    (∀ t : ℝ, -1 ≤ Real.cos t) ∧ (0 : ℝ) ≤ 0.5 ∧
    accumulateWaveToHeightField Real.cos Real.pi (0.5 : ℝ) 0.8 0.5 (fun _ => 0) =
      some (fun k => if (24 : ℤ) ≤ (k.val : ℤ) ∧ (k.val : ℤ) < 56
        then 0 + waveHeight Real.cos Real.pi (0.5 : ℝ) (0.25 * 0.8) 0.5 (k.val : ℤ) else 0) ∧
    ∀ k : Fin kBufferSize, (0 : ℝ) ≤ (if (24 : ℤ) ≤ (k.val : ℤ) ∧ (k.val : ℤ) < 56
        then 0 + waveHeight Real.cos Real.pi (0.5 : ℝ) (0.25 * 0.8) 0.5 (k.val : ℤ) else 0) :=
  ⟨Real.neg_one_le_cos, by norm_num, accumulate_centred,
    (accumulate_never_decreases Real.cos Real.pi Real.neg_one_le_cos).1 0.5 0.8 0.5
      (fun _ => 0) _ (by norm_num) accumulate_centred⟩

/-- C4 (counterexample): in exact real arithmetic the centred wave `x = 0.5`,
`waveLength = 0.8`, `maxHeight = 0.5` does not leave the value `0.5` in cell 40: the
centre of that cell is at `40.5 / 80`, a distance `1/160` away from `x`, so the cell
receives `0.25 * (cos (π / 32) + 1) < 0.5`. -/
theorem centred_peak_is_not_maxHeight :
    ¬ ∃ g : HeightField ℝ,
      accumulateWaveToHeightField Real.cos Real.pi (0.5 : ℝ) 0.8 0.5 (fun _ => 0) = some g ∧
      (∀ k, g k ≤ g ⟨40, by decide⟩) ∧ g ⟨40, by decide⟩ = 0.5 := by
  rintro ⟨g, hg, -, h40⟩
  rw [accumulate_centred] at hg
  simp only [Option.some.injEq] at hg
  subst hg
  have hc : (24 : ℤ) ≤ 40 ∧ (40 : ℤ) < 56 := by norm_num
  simp only [Nat.cast_ofNat, hc, and_self, if_true, zero_add, waveHeight_centred_40] at h40
  have hlt := cos_pi_div_32_lt_one
  generalize Real.cos (Real.pi / 32) = c at h40 hlt
  have h2 : (0.5 : ℝ) * 0.5 * (c + 1) < 0.5 := by
    have : (0.5 : ℝ) * 0.5 * (c + 1) = (c + 1) / 4 := by ring
    rw [this]
    have : (0.5 : ℝ) = 2 / 4 := by norm_num
    rw [this]
    linarith
  exact absurd h40 (ne_of_lt h2)

/-- C4 (amended): starting from the zero field, after
`accumulateWaveToHeightField(x = 0.5, waveLength = 0.8, maxHeight = 0.5)` the maximum
of the field is attained at index 40 (and equally at index 39) and equals
`0.5 * 0.5 * (cos (π / 32) + 1)`, which is strictly below `maxHeight = 0.5`. -/
theorem centred_peak_at_40 :
    ∃ g : HeightField ℝ,
      accumulateWaveToHeightField Real.cos Real.pi (0.5 : ℝ) 0.8 0.5 (fun _ => 0) = some g ∧
      (∀ k, g k ≤ g ⟨40, by decide⟩) ∧ g ⟨39, by decide⟩ = g ⟨40, by decide⟩ ∧
      g ⟨40, by decide⟩ = 0.5 * 0.5 * (Real.cos (Real.pi / 32) + 1) ∧
      g ⟨40, by decide⟩ < 0.5 := by
  have hc : (24 : ℤ) ≤ 40 ∧ (40 : ℤ) < 56 := by norm_num
  have hc1 : (24 : ℤ) ≤ 39 ∧ (39 : ℤ) < 56 := by norm_num
  refine ⟨_, accumulate_centred, ?_, ?_, ?_, ?_⟩
  · intro k
    simp only [Nat.cast_ofNat, hc, and_self, if_true, zero_add]
    split_ifs
    · exact waveHeight_centred_le _
    · exact waveHeight_centred_nonneg _
  · simp only [Nat.cast_ofNat, hc, hc1, and_self, if_true, zero_add,
      waveHeight_centred_40, waveHeight_centred_39]
  · simp only [Nat.cast_ofNat, hc, and_self, if_true, zero_add, waveHeight_centred_40]
  · simp only [Nat.cast_ofNat, hc, and_self, if_true, zero_add, waveHeight_centred_40]
    have hlt := cos_pi_div_32_lt_one
    generalize Real.cos (Real.pi / 32) = c at hlt
    have h1 : (0.5 : ℝ) * 0.5 * (c + 1) = (c + 1) / 4 := by ring
    have h2 : (0.5 : ℝ) = 2 / 4 := by norm_num
    rw [h1, h2]
    linarith

/-- C5 (the code at the failing inputs): the size the renderers use is the size of a
pointer, 8, not the 10 symbols of the palette.  A height of `1` is quantised to index
`7`, the symbol `#`, where `min (floor (10 * 1)) 9 = 9` selects `@`; a height of `1/10`
is quantised to `0` where `floor (10 * 1/10) = 1`; and `draw2d` builds 8 rows. -/
theorem palette_size_is_pointer_size :
    kGrayScaleTableSize = 8 ∧
    tableIndex (1 : ℚ) = some 7 ∧ kGrayScaleTable.get? 7 = some '#' ∧
    min ⌊(10 : ℚ) * 1⌋.toNat 9 = 9 ∧ kGrayScaleTable.get? 9 = some '@' ∧
    tableIndex (1 / 10 : ℚ) = some 0 ∧ min ⌊(10 : ℚ) * (1 / 10)⌋.toNat 9 = 1 ∧
    draw2d (fun _ => (0 : ℚ)) = some (List.replicate 8 (List.replicate 80 ' ')) := by
  have hsize : kGrayScaleTableSize = 8 := by decide
  refine ⟨hsize, ?_, by decide, ?_, by decide, ?_, ?_, ?_⟩
  · rw [tableIndex_of_nonneg (by norm_num) (by rw [hsize]; norm_num), hsize]
    have : ⌊((8 : ℕ) : ℚ) * 1⌋ = 8 := by
      rw [Int.floor_eq_iff]; norm_num
    rw [this]
    rfl
  · have : ⌊(10 : ℚ) * 1⌋ = 10 := by
      rw [Int.floor_eq_iff]; norm_num
    rw [this]
    rfl
  · exact tableIndex_blank (by rw [hsize]; norm_num) (by rw [hsize]; norm_num)
  · have : ⌊(10 : ℚ) * (1 / 10)⌋ = 1 := by
      rw [Int.floor_eq_iff]; norm_num
    rw [this]
    rfl
  · exact draw2d_of_blank (fun _ => (0 : ℚ)) (fun _ => tableIndex_blank (by simp) (by simp))

/-- C9: a field all of whose values `h` satisfy `0 ≤ kGrayScaleTableSize * h < 1`
is drawn by `draw` as `kBufferSize` blanks, and by `draw2d` as rows of `kBufferSize`
blanks. -/
theorem blank_field_renders_blank {α : Type} [LinearOrderedField α] [FloorRing α]
    (f : HeightField α)
    (h : ∀ j, 0 ≤ (kGrayScaleTableSize : α) * f j ∧ (kGrayScaleTableSize : α) * f j < 1) :
    draw f = some (List.replicate kBufferSize ' ') ∧
    draw2d f = some (List.replicate kGrayScaleTableSize (List.replicate kBufferSize ' ')) := by
  have hblank : ∀ j : Fin kBufferSize, tableIndex (f j) = some 0 :=
    fun j => tableIndex_blank (h j).1 (h j).2
  exact ⟨draw_of_blank f hblank, draw2d_of_blank f hblank⟩

/-- C9 (witness): the all-zero field. -/
theorem blank_field_renders_blank_witness :
    (∀ j : Fin kBufferSize, 0 ≤ (kGrayScaleTableSize : ℚ) * (fun _ => (0 : ℚ)) j ∧
      (kGrayScaleTableSize : ℚ) * (fun _ => (0 : ℚ)) j < 1) ∧
    draw (fun _ => (0 : ℚ)) = some (List.replicate kBufferSize ' ') ∧
    draw2d (fun _ => (0 : ℚ)) =
      some (List.replicate kGrayScaleTableSize (List.replicate kBufferSize ' ')) :=
  ⟨fun _ => by simp, blank_field_renders_blank (fun _ => (0 : ℚ)) (fun _ => by simp)⟩

/-- C7 (the code at the failing input): the sample `i = -1` is stored in cell 2, whose
centre `2.5 / 80` is not the mirror image `0.5 / 80` of the centre of cell `-1`; every
`i < 0` is stored two cells to the right of its mirror image, while every `i ≥ 80` is
stored exactly at its mirror image across 1. -/
theorem reflectIndex_lower_branch_is_not_a_mirror :
    reflectIndex (-1) = 2 ∧
    (((reflectIndex (-1) : ℤ) : ℚ) + 0.5) / 80 ≠ -((((-1 : ℤ) : ℚ) + 0.5) / 80) ∧
    (∀ i : ℤ, i < 0 →
      (((reflectIndex i : ℤ) : ℚ) + 0.5) / 80 = -(((i : ℚ) + 0.5) / 80) + 2 / 80) ∧
    (∀ i : ℤ, 80 ≤ i → i ≤ 2147483647 →
      (((reflectIndex i : ℤ) : ℚ) + 0.5) / 80 = 2 - ((i : ℚ) + 0.5) / 80) := by
  have h1 : reflectIndex (-1) = 2 := by decide
  refine ⟨h1, ?_, ?_, ?_⟩
  · rw [h1]; norm_num
  · intro i hi
    rw [reflectIndex_of_neg hi]
    push_cast
    ring
  · intro i h0 h1
    rw [reflectIndex_of_ge h0 h1]
    push_cast
    ring

/-- C8 (the code at the failing input): the indices `-80` and `-79`, which are within
one reflection of the array, are sent to `81` and `80`, outside the array; the call
`accumulateWaveToHeightField(x = 0, waveLength = 4, ...)`, whose window is `[-80, 80)`,
therefore stores outside the array. -/
theorem reflectIndex_leaves_array :
    reflectIndex (-80) = 81 ∧ reflectIndex (-79) = 80 ∧
    windowStart (0 : ℚ) 4 = some (-80) ∧ windowEnd (0 : ℚ) 4 = some 80 ∧
    ∀ (cosF : ℚ → ℚ) (piC mh : ℚ) (f : HeightField ℚ),
      accumulateWaveToHeightField cosF piC 0 4 mh f = none := by
  have h80 : reflectIndex (-80) = 81 := by decide
  have hs : windowStart (0 : ℚ) 4 = some (-80) := by
    unfold windowStart
    have h : ((0 : ℚ) - 0.25 * 4) * ((kBufferSize : ℕ) : ℚ) = ((-80 : ℤ) : ℚ) := by
      simp only [kBufferSize]; norm_num
    rw [h]
    exact staticCastInt_eq_some (truncate_intCast _) (by norm_num) (by norm_num)
  have he : windowEnd (0 : ℚ) 4 = some 80 := by
    unfold windowEnd
    have h : ((0 : ℚ) + 0.25 * 4) * ((kBufferSize : ℕ) : ℚ) = ((80 : ℤ) : ℚ) := by
      simp only [kBufferSize]; norm_num
    rw [h]
    exact staticCastInt_eq_some (truncate_intCast _) (by norm_num) (by norm_num)
  refine ⟨h80, by decide, hs, he, ?_⟩
  intro cosF piC mh f
  unfold accumulateWaveToHeightField
  rw [hs, he]
  simp only [Option.some_bind]
  have hn : ((80 : ℤ) - -80).toNat = 159 + 1 := by decide
  rw [hn, accumulateLoop_succ]
  unfold accumulateStep
  rw [h80, addHeight_of_outside f (Or.inr (by norm_num))]
  rfl

/-- C10: in one iteration of the loop of `main`, the field that reaches `draw2d` is the
result of accumulating the wave `(x, 0.8, 0.5)` and then the wave `(y, 1.2, 0.4)` onto
the all-zero field, `x` and `y` being the positions `updateWave` returns in this
iteration; replacing the contents the field had before the iteration changes nothing. -/
theorem frame_starts_from_zero {α : Type} [LinearOrderedField α] [FloorRing α]
    (cosF : α → α) (piC : α) (s : MainState α) :
    (prepareFrame cosF piC s).map MainState.heightField =
      (accumulateWaveToHeightField cosF piC (updateWave (1.0 / 100) s.x s.speedX).1 0.8 0.5
        (fun _ => 0)).bind
        (accumulateWaveToHeightField cosF piC (updateWave (1.0 / 100) s.y s.speedY).1 1.2 0.4) ∧
    (∀ g : HeightField α,
      prepareFrame cosF piC { s with heightField := g } = prepareFrame cosF piC s) ∧
    mainLoopBody cosF piC s =
      (prepareFrame cosF piC s).bind fun s1 =>
        (draw2d s1.heightField).map fun frame => (s1, frame) := by
  refine ⟨?_, ?_, rfl⟩
  · simp only [prepareFrame, clearHeightField_eq]
    cases accumulateWaveToHeightField cosF piC (updateWave (1.0 / 100) s.x s.speedX).1 0.8 0.5
        (fun _ => 0) with
    | none => rfl
    | some h1 =>
      simp only [Option.some_bind]
      cases accumulateWaveToHeightField cosF piC (updateWave (1.0 / 100) s.y s.speedY).1 1.2
          0.4 h1 with
      | none => rfl
      | some h2 => rfl
  · intro g
    simp only [prepareFrame, clearHeightField_eq]

/-- C16: with the true cosine, for `maxHeight ≥ 0` and `quarter = 0.25 * waveLength > 0`,
the contribution `height(d) = maxHeight * 0.5 * (cos (min (d * π / quarter) π) + 1)`
equals `maxHeight` at `d = 0`, equals `0` for every `d ≥ quarter`, does not increase
with `d ≥ 0`, and lies in `[0, maxHeight]` for every `d ≥ 0`. -/
theorem bump_shape (w mh : ℝ) (hq : 0 < 0.25 * w) (hm : 0 ≤ mh) :
    bumpHeight Real.cos Real.pi (0.25 * w) mh 0 = mh ∧
    (∀ d, 0.25 * w ≤ d → bumpHeight Real.cos Real.pi (0.25 * w) mh d = 0) ∧
    (∀ d1 d2, 0 ≤ d1 → d1 ≤ d2 →
      bumpHeight Real.cos Real.pi (0.25 * w) mh d2 ≤
        bumpHeight Real.cos Real.pi (0.25 * w) mh d1) ∧
    (∀ d, 0 ≤ d → 0 ≤ bumpHeight Real.cos Real.pi (0.25 * w) mh d ∧
      bumpHeight Real.cos Real.pi (0.25 * w) mh d ≤ mh) :=
  ⟨bumpHeight_real_at_zero _ mh, fun _ hd => bumpHeight_real_beyond mh hq hd,
    fun _ _ h1 h12 => bumpHeight_real_antitone hq hm h1 h12,
    fun _ hd => bumpHeight_real_mem hq hm hd⟩

/-- C16 (witness): the bump of the first wave of `main`, `waveLength = 0.8` and
`maxHeight = 0.5`. -/
theorem bump_shape_witness :
    (0 : ℝ) < 0.25 * 0.8 ∧ (0 : ℝ) ≤ 0.5 ∧
    (bumpHeight Real.cos Real.pi (0.25 * 0.8) (0.5 : ℝ) 0 = 0.5 ∧
    (∀ d, 0.25 * 0.8 ≤ d → bumpHeight Real.cos Real.pi (0.25 * 0.8) (0.5 : ℝ) d = 0) ∧
    (∀ d1 d2, 0 ≤ d1 → d1 ≤ d2 →
      bumpHeight Real.cos Real.pi (0.25 * 0.8) (0.5 : ℝ) d2 ≤
        bumpHeight Real.cos Real.pi (0.25 * 0.8) (0.5 : ℝ) d1) ∧
    (∀ d, 0 ≤ d → 0 ≤ bumpHeight Real.cos Real.pi (0.25 * 0.8) (0.5 : ℝ) d ∧
      bumpHeight Real.cos Real.pi (0.25 * 0.8) (0.5 : ℝ) d ≤ 0.5)) :=
  ⟨by norm_num, by norm_num, bump_shape 0.8 0.5 (by norm_num) (by norm_num)⟩

/-- C17: there are a position in `[0,1]`, a speed and a time step `dt > 0` with
`dt * |s| > 1` for which one call of `updateWave` negates the speed exactly once and
ends outside `[0,1]`: from `p = 1/2` with `s = -1` and `dt = 2` the projected position
is `-3/2`, only the second check fires, and the call returns position `2` with speed
`1 = -s`. -/
theorem updateWave_single_bounce_escapes :
    ∃ p s dt : ℚ, 0 ≤ p ∧ p ≤ 1 ∧ 0 < dt ∧ dt * |s| > 1 ∧
      ¬ (p + dt * s > 1) ∧ p + dt * s < 0 ∧
      s ≠ 0 ∧ (updateWave dt p s).2 = -s ∧
      ¬ (0 ≤ (updateWave dt p s).1 ∧ (updateWave dt p s).1 ≤ 1) := by
  refine ⟨1 / 2, -1, 2, by norm_num, by norm_num, by norm_num, by norm_num, by norm_num,
    by norm_num, by norm_num, ?_, ?_⟩
  · rw [updateWave_of_lt_zero _ _ _ (by norm_num)]
  · rw [updateWave_of_lt_zero _ _ _ (by norm_num)]
    norm_num

/-- C18: for every position, speed `s` and time step, the speed after `updateWave` is
`s` or `-s`, so its magnitude is `|s|`. -/
theorem updateWave_preserves_speed_magnitude {α : Type} [LinearOrderedField α] (dt p s : α) :
    ((updateWave dt p s).2 = s ∨ (updateWave dt p s).2 = -s) ∧
    |(updateWave dt p s).2| = |s| :=
  ⟨updateWave_speed_cases dt p s, updateWave_abs_speed dt p s⟩

/-- C13: for a centre `0 ≤ x ≤ 1` and a wavelength `0 ≤ waveLength ≤ 3.9`, the call of
`accumulateWaveToHeightField` has a window `[start, end)` all of whose indices `i` are
stored at an index `iNew` with `0 ≤ iNew < 80`, and the call has a result (no store
falls outside the array). -/
theorem in_range_wave_stores_in_bounds {α : Type} [LinearOrderedField α] [FloorRing α]
    (cosF : α → α) (piC x w mh : α) (f : HeightField α)
    (hx0 : 0 ≤ x) (hx1 : x ≤ 1) (hw0 : 0 ≤ w) (hw1 : w ≤ 3.9) :
    ∃ a b : ℤ, windowStart x w = some a ∧ windowEnd x w = some b ∧
      (∀ i : ℤ, a ≤ i → i < b → 0 ≤ reflectIndex i ∧ reflectIndex i < 80) ∧
      ∃ g, accumulateWaveToHeightField cosF piC x w mh f = some g := by
  obtain ⟨a, b, hs, he, ha, -, -, hb⟩ := window_bounds hx0 hx1 hw0 hw1
  refine ⟨a, b, hs, he, ?_, ?_⟩
  · intro i hai hib
    exact reflectIndex_in_range (by omega) (by omega)
  · exact accumulate_defined cosF piC x w mh f hs he ha (by omega)

/-- C13 (witness): the extreme case `x = 0`, `waveLength = 3.9`, with the real cosine. -/
theorem in_range_wave_stores_in_bounds_witness :
    (0 : ℝ) ≤ 0 ∧ (0 : ℝ) ≤ 1 ∧ (0 : ℝ) ≤ 3.9 ∧ (3.9 : ℝ) ≤ 3.9 ∧
    ∃ a b : ℤ, windowStart (0 : ℝ) 3.9 = some a ∧ windowEnd (0 : ℝ) 3.9 = some b ∧
      (∀ i : ℤ, a ≤ i → i < b → 0 ≤ reflectIndex i ∧ reflectIndex i < 80) ∧
      ∃ g, accumulateWaveToHeightField Real.cos Real.pi (0 : ℝ) 3.9 0.5 (fun _ => 0) =
        some g :=
  ⟨le_refl 0, zero_le_one, by norm_num, le_refl _,
    in_range_wave_stores_in_bounds Real.cos Real.pi 0 3.9 0.5 (fun _ => 0)
      (le_refl 0) zero_le_one (by norm_num) (le_refl _)⟩

/-- C12: for a field with non-negative values (within the range of `size_t` after
scaling), `draw2d` builds `kGrayScaleTableSize` rows in which, for every column `j` with
quantised index `t j` and every level `i` below `kGrayScaleTableSize`, the cell of level
`i`, stored in row `kGrayScaleTableSize - 1 - i`, is `#` exactly when `t j ≥ i` and
`t j ≠ 0`, and a blank otherwise; the filled cells of a column are the levels `0` to
`t j`, a bar from the bottom row of height `t j + 1`, or none when `t j = 0`. -/
theorem draw2d_fill_rule {α : Type} [LinearOrderedField α] [FloorRing α] (f : HeightField α)
    (hf : ∀ j, 0 ≤ f j ∧ (kGrayScaleTableSize : α) * f j < 18446744073709551616) :
    ∃ (b : List (List Char)) (t : Fin kBufferSize → ℕ),
      draw2d f = some b ∧ b.length = kGrayScaleTableSize ∧
      (∀ j, tableIndex (f j) = some (t j) ∧
        t j = min ⌊(kGrayScaleTableSize : α) * f j⌋.toNat (kGrayScaleTableSize - 1)) ∧
      (∀ i, i < kGrayScaleTableSize → ∀ j : Fin kBufferSize,
        cellAt b ((kGrayScaleTableSize - 1) - i) j.val =
          some (if i ≤ t j ∧ t j ≠ 0 then '#' else ' ') ∧
        (cellAt b ((kGrayScaleTableSize - 1) - i) j.val = some '#' ↔ (t j ≠ 0 ∧ i ≤ t j))) ∧
      (∀ j : Fin kBufferSize, t j ≤ kGrayScaleTableSize - 1 ∧
        (List.range kGrayScaleTableSize).countP
            (fun i => decide (cellAt b ((kGrayScaleTableSize - 1) - i) j.val = some '#')) =
          if t j = 0 then 0 else t j + 1) := by
  have ht : ∀ j, tableIndex (f j) =
      some (min ⌊(kGrayScaleTableSize : α) * f j⌋.toNat (kGrayScaleTableSize - 1)) :=
    fun j => tableIndex_of_nonneg (hf j).1 (hf j).2
  obtain ⟨b, hb, hlen, hcell⟩ := draw2d_cells f _ ht
  have hcell1 : ∀ i, i < kGrayScaleTableSize → ∀ j : Fin kBufferSize,
      cellAt b ((kGrayScaleTableSize - 1) - i) j.val =
        some (if i ≤ min ⌊(kGrayScaleTableSize : α) * f j⌋.toNat (kGrayScaleTableSize - 1) ∧
          min ⌊(kGrayScaleTableSize : α) * f j⌋.toNat (kGrayScaleTableSize - 1) ≠ 0
          then '#' else ' ') := by
    intro i hi j
    rw [hcell i hi j, fillChar_eq]
  have hiff : ∀ i, i < kGrayScaleTableSize → ∀ j : Fin kBufferSize,
      (cellAt b ((kGrayScaleTableSize - 1) - i) j.val = some '#' ↔
        (min ⌊(kGrayScaleTableSize : α) * f j⌋.toNat (kGrayScaleTableSize - 1) ≠ 0 ∧
          i ≤ min ⌊(kGrayScaleTableSize : α) * f j⌋.toNat (kGrayScaleTableSize - 1))) := by
    intro i hi j
    rw [hcell1 i hi j, Option.some.injEq]
    exact fillChar_eq_hash_iff _ _
  refine ⟨b, _, hb, hlen, fun j => ⟨ht j, rfl⟩, fun i hi j => ⟨hcell1 i hi j, hiff i hi j⟩, ?_⟩
  intro j
  refine ⟨tableIndex_le (ht j), ?_⟩
  have hcongr : (List.range kGrayScaleTableSize).countP
      (fun i => decide (cellAt b ((kGrayScaleTableSize - 1) - i) j.val = some '#')) =
      (List.range kGrayScaleTableSize).countP
        (fun i => decide
          (min ⌊(kGrayScaleTableSize : α) * f j⌋.toNat (kGrayScaleTableSize - 1) ≠ 0 ∧
            i ≤ min ⌊(kGrayScaleTableSize : α) * f j⌋.toNat (kGrayScaleTableSize - 1))) := by
    apply List.countP_congr
    intro i hi
    rw [decide_eq_true_iff, decide_eq_true_iff]
    exact hiff i (List.mem_range.mp hi) j
  rw [hcongr]
  exact bar_count _ (tableIndex_lt_eight (ht j))

/-- C12 (witness): the field that is `1/2` everywhere. -/
theorem draw2d_fill_rule_witness :
    (∀ j : Fin kBufferSize, 0 ≤ (fun _ => (1 / 2 : ℚ)) j ∧
      (kGrayScaleTableSize : ℚ) * (fun _ => (1 / 2 : ℚ)) j < 18446744073709551616) ∧
    ∃ (b : List (List Char)) (t : Fin kBufferSize → ℕ),
      draw2d (fun _ => (1 / 2 : ℚ)) = some b ∧ b.length = kGrayScaleTableSize ∧
      (∀ j, tableIndex ((fun _ => (1 / 2 : ℚ)) j) = some (t j) ∧
        t j = min ⌊(kGrayScaleTableSize : ℚ) * (fun _ => (1 / 2 : ℚ)) j⌋.toNat
          (kGrayScaleTableSize - 1)) ∧
      (∀ i, i < kGrayScaleTableSize → ∀ j : Fin kBufferSize,
        cellAt b ((kGrayScaleTableSize - 1) - i) j.val =
          some (if i ≤ t j ∧ t j ≠ 0 then '#' else ' ') ∧
        (cellAt b ((kGrayScaleTableSize - 1) - i) j.val = some '#' ↔ (t j ≠ 0 ∧ i ≤ t j))) ∧
      (∀ j : Fin kBufferSize, t j ≤ kGrayScaleTableSize - 1 ∧
        (List.range kGrayScaleTableSize).countP
            (fun i => decide (cellAt b ((kGrayScaleTableSize - 1) - i) j.val = some '#')) =
          if t j = 0 then 0 else t j + 1) :=
  ⟨fun _ => ⟨by norm_num, by rw [kGrayScaleTableSize_eq]; norm_num⟩,
    draw2d_fill_rule (fun _ => (1 / 2 : ℚ))
      (fun _ => ⟨by norm_num, by rw [kGrayScaleTableSize_eq]; norm_num⟩)⟩

/-- C19: for heights `0 ≤ h1 ≤ h2` (within the range of `size_t` after scaling) the table
indices computed by `draw` exist, are non-decreasing in the height, are below 10, and
select a symbol of the palette that is not the terminating NUL. -/
theorem palette_lookup_in_range {α : Type} [LinearOrderedField α] [FloorRing α] (h1 h2 : α)
    (h0 : 0 ≤ h1) (h12 : h1 ≤ h2)
    (hb : (kGrayScaleTableSize : α) * h2 < 18446744073709551616) :
    ∃ t1 t2 : ℕ, tableIndex h1 = some t1 ∧ tableIndex h2 = some t2 ∧
      t1 = min ⌊(kGrayScaleTableSize : α) * h1⌋.toNat (kGrayScaleTableSize - 1) ∧
      t2 = min ⌊(kGrayScaleTableSize : α) * h2⌋.toNat (kGrayScaleTableSize - 1) ∧
      t1 ≤ t2 ∧ t1 < 10 ∧ t2 < 10 ∧
      kGrayScaleTable.get? t1 ≠ none ∧ kGrayScaleTable.get? t1 ≠ some (Char.ofNat 0) ∧
      kGrayScaleTable.get? t2 ≠ none ∧ kGrayScaleTable.get? t2 ≠ some (Char.ofNat 0) := by
  have hk : (0 : α) ≤ (kGrayScaleTableSize : α) := Nat.cast_nonneg _
  have hmul : (kGrayScaleTableSize : α) * h1 ≤ (kGrayScaleTableSize : α) * h2 :=
    mul_le_mul_of_nonneg_left h12 hk
  have e1 := tableIndex_of_nonneg h0 (lt_of_le_of_lt hmul hb)
  have e2 := tableIndex_of_nonneg (le_trans h0 h12) hb
  have l1 := tableIndex_lt_eight e1
  have l2 := tableIndex_lt_eight e2
  have hmono : min ⌊(kGrayScaleTableSize : α) * h1⌋.toNat (kGrayScaleTableSize - 1) ≤
      min ⌊(kGrayScaleTableSize : α) * h2⌋.toNat (kGrayScaleTableSize - 1) :=
    min_le_min (Int.toNat_le_toNat (Int.floor_le_floor hmul)) (le_refl _)
  exact ⟨_, _, e1, e2, rfl, rfl, hmono, lt_trans l1 (by norm_num), lt_trans l2 (by norm_num),
    (palette_symbol_of_lt _ l1).1, (palette_symbol_of_lt _ l1).2,
    (palette_symbol_of_lt _ l2).1, (palette_symbol_of_lt _ l2).2⟩

/-- C19 (witness): the heights `1/2` and `1`. -/
theorem palette_lookup_in_range_witness :
    (0 : ℚ) ≤ 1 / 2 ∧ (1 / 2 : ℚ) ≤ 1 ∧
    (kGrayScaleTableSize : ℚ) * 1 < 18446744073709551616 ∧
    ∃ t1 t2 : ℕ, tableIndex (1 / 2 : ℚ) = some t1 ∧ tableIndex (1 : ℚ) = some t2 ∧
      t1 = min ⌊(kGrayScaleTableSize : ℚ) * (1 / 2)⌋.toNat (kGrayScaleTableSize - 1) ∧
      t2 = min ⌊(kGrayScaleTableSize : ℚ) * 1⌋.toNat (kGrayScaleTableSize - 1) ∧
      t1 ≤ t2 ∧ t1 < 10 ∧ t2 < 10 ∧
      kGrayScaleTable.get? t1 ≠ none ∧ kGrayScaleTable.get? t1 ≠ some (Char.ofNat 0) ∧
      kGrayScaleTable.get? t2 ≠ none ∧ kGrayScaleTable.get? t2 ≠ some (Char.ofNat 0) :=
  ⟨by norm_num, by norm_num, by rw [kGrayScaleTableSize_eq]; norm_num,
    palette_lookup_in_range (1 / 2 : ℚ) 1 (by norm_num) (by norm_num)
      (by rw [kGrayScaleTableSize_eq]; norm_num)⟩

/-- C14: with the constants of `main` (`x = 0.0`, `speedX = 1.0`, `y = 1.0`,
`speedY = -0.5`, `dt = 1/100`) and a cosine with values in `[-1, 1]`, the first `n`
iterations of the loop have a result for every `n` and every initial content of the field
(so none of the calls of `accumulateWaveToHeightField` made stores outside the array);
in the state reached both positions lie in `[0,1]`, `|speedX| = 1.0`, `|speedY| = 0.5`,
and every index of the windows of the two waves at these positions is stored at an
index in `[0, 80)`. -/
theorem driver_invariant {α : Type} [LinearOrderedField α] [FloorRing α] (cosF : α → α)
    (piC : α) (hcos : ∀ t, -1 ≤ cosF t ∧ cosF t ≤ 1) (uninitialised : HeightField α) (n : ℕ) :
    ∃ (s : MainState α) (frames : List (List (List Char))),
      mainLoop cosF piC n (mainInit uninitialised) = some (s, frames) ∧ frames.length = n ∧
      0 ≤ s.x ∧ s.x ≤ 1 ∧ 0 ≤ s.y ∧ s.y ≤ 1 ∧ |s.speedX| = 1.0 ∧ |s.speedY| = 0.5 ∧
      (∃ a b : ℤ, windowStart s.x 0.8 = some a ∧ windowEnd s.x 0.8 = some b ∧
        ∀ i : ℤ, a ≤ i → i < b → 0 ≤ reflectIndex i ∧ reflectIndex i < 80) ∧
      (∃ a b : ℤ, windowStart s.y 1.2 = some a ∧ windowEnd s.y 1.2 = some b ∧
        ∀ i : ℤ, a ≤ i → i < b → 0 ≤ reflectIndex i ∧ reflectIndex i < 80) := by
  have h1 : (1.0 : α) = 1 := by norm_num
  have h2 : (0.5 : α) = 1 / 2 := by norm_num
  obtain ⟨s, frames, hloop, hlen, hx0, hx1, hy0, hy1, hsx, hsy⟩ :=
    mainLoop_invariant hcos piC n (mainInit uninitialised)
      (by simp only [mainInit]; norm_num) (by simp only [mainInit]; norm_num)
      (by simp only [mainInit]; norm_num) (by simp only [mainInit]; norm_num)
      (by simp only [mainInit]; norm_num)
      (by simp only [mainInit, abs_neg]; norm_num)
  obtain ⟨a, b, hs, he, ha, -, -, hb⟩ := window_bounds hx0 hx1
    (by norm_num : (0 : α) ≤ 0.8) (by norm_num : (0.8 : α) ≤ 3.9)
  obtain ⟨c, d, hs2, he2, hc, -, -, hd⟩ := window_bounds hy0 hy1
    (by norm_num : (0 : α) ≤ 1.2) (by norm_num : (1.2 : α) ≤ 3.9)
  refine ⟨s, frames, hloop, hlen, hx0, hx1, hy0, hy1, by rw [h1]; exact hsx,
    by rw [h2]; exact hsy, ⟨a, b, hs, he, ?_⟩, ⟨c, d, hs2, he2, ?_⟩⟩
  · intro i hai hib
    exact reflectIndex_in_range (by omega) (by omega)
  · intro i hci hid
    exact reflectIndex_in_range (by omega) (by omega)

/-- C14 (witness): the 1000 iterations of `main` with the real cosine, the field
starting at zero. -/
theorem driver_invariant_witness :
    (∀ t : ℝ, -1 ≤ Real.cos t ∧ Real.cos t ≤ 1) ∧
    ∃ (s : MainState ℝ) (frames : List (List (List Char))),
      mainLoop Real.cos Real.pi 1000 (mainInit (fun _ => 0)) = some (s, frames) ∧
      frames.length = 1000 ∧
      0 ≤ s.x ∧ s.x ≤ 1 ∧ 0 ≤ s.y ∧ s.y ≤ 1 ∧ |s.speedX| = 1.0 ∧ |s.speedY| = 0.5 ∧
      (∃ a b : ℤ, windowStart s.x 0.8 = some a ∧ windowEnd s.x 0.8 = some b ∧
        ∀ i : ℤ, a ≤ i → i < b → 0 ≤ reflectIndex i ∧ reflectIndex i < 80) ∧
      (∃ a b : ℤ, windowStart s.y 1.2 = some a ∧ windowEnd s.y 1.2 = some b ∧
        ∀ i : ℤ, a ≤ i → i < b → 0 ≤ reflectIndex i ∧ reflectIndex i < 80) :=
  ⟨fun t => ⟨Real.neg_one_le_cos t, Real.cos_le_one t⟩,
    driver_invariant Real.cos Real.pi
      (fun t => ⟨Real.neg_one_le_cos t, Real.cos_le_one t⟩) (fun _ => 0) 1000⟩

/-- C6 (counterexample): for the `double`s `x = 0.01` and `waveLength = 0.8` of the
claim's example the code computes the product `-15.2` (to the last bit,
`-4278419646001971 / 2^48`) and `start = -15`, whereas the floor of that product, and of
the exact product, is `-16`. -/
theorem windowStart_double_is_not_floor :
    windowStartFl roundDouble (roundDouble (0.01 : ℝ)) (roundDouble 0.8) = some (-15) ∧
    ⌊roundDouble (roundDouble (roundDouble (0.01 : ℝ) - roundDouble (0.25 * roundDouble 0.8))
      * 80)⌋ = -16 ∧
    ⌊((0.01 : ℝ) - 0.25 * 0.8) * 80⌋ = -16 := by
  refine ⟨?_, ?_, ?_⟩
  · unfold windowStartFl
    have hk : ((kBufferSize : ℕ) : ℝ) = 80 := by simp only [kBufferSize]; norm_num
    rw [hk, startProduct_double_001]
    have ht : truncate (-4278419646001971 / 281474976710656 : ℝ) = -15 := by
      rw [truncate_of_neg (by norm_num), Int.ceil_eq_iff]
      norm_num
    exact staticCastInt_eq_some ht (by norm_num) (by norm_num)
  · rw [startProduct_double_001, Int.floor_eq_iff]
    norm_num
  · rw [Int.floor_eq_iff]
    norm_num

/-- C6 (amended): whatever the rounding `fl` of the floating-point operations, when the
products `(x - 0.25 * waveLength) * 80` and `(x + 0.25 * waveLength) * 80`, as the code
computes them, are in the range of `int`, `start` and `end` are these computed products
rounded toward zero: the floor of a product that is `≥ 0` and the ceiling of a product
that is `≤ 0`. -/
theorem windowFl_rounds_toward_zero {α : Type} [LinearOrderedField α] [FloorRing α]
    (fl : α → α) (x w : α)
    (hs : -2147483648 ≤ fl (fl (x - fl (0.25 * w)) * 80) ∧
      fl (fl (x - fl (0.25 * w)) * 80) ≤ 2147483647)
    (he : -2147483648 ≤ fl (fl (x + fl (0.25 * w)) * 80) ∧
      fl (fl (x + fl (0.25 * w)) * 80) ≤ 2147483647) :
    ∃ start stop : ℤ, windowStartFl fl x w = some start ∧ windowEndFl fl x w = some stop ∧
      (0 ≤ fl (fl (x - fl (0.25 * w)) * 80) → start = ⌊fl (fl (x - fl (0.25 * w)) * 80)⌋) ∧
      (fl (fl (x - fl (0.25 * w)) * 80) ≤ 0 → start = ⌈fl (fl (x - fl (0.25 * w)) * 80)⌉) ∧
      (0 ≤ fl (fl (x + fl (0.25 * w)) * 80) → stop = ⌊fl (fl (x + fl (0.25 * w)) * 80)⌋) ∧
      (fl (fl (x + fl (0.25 * w)) * 80) ≤ 0 → stop = ⌈fl (fl (x + fl (0.25 * w)) * 80)⌉) := by
  have hk : ((kBufferSize : ℕ) : α) = 80 := by simp only [kBufferSize]; norm_num
  have key : ∀ p : α, (0 ≤ p → truncate p = ⌊p⌋) ∧ (p ≤ 0 → truncate p = ⌈p⌉) := by
    intro p
    refine ⟨truncate_of_nonneg, fun hp => ?_⟩
    rcases lt_or_eq_of_le hp with hlt | heq
    · exact truncate_of_neg hlt
    · rw [heq, truncate_of_nonneg (le_refl 0)]
      simp
  refine ⟨truncate (fl (fl (x - fl (0.25 * w)) * 80)),
    truncate (fl (fl (x + fl (0.25 * w)) * 80)), ?_, ?_,
    (key _).1, (key _).2, (key _).1, (key _).2⟩
  · unfold windowStartFl
    rw [hk]
    exact staticCastInt_of_in_range hs.1 hs.2
  · unfold windowEndFl
    rw [hk]
    exact staticCastInt_of_in_range he.1 he.2

/-- C6 (witness): the centred wave `x = 0.5`, `waveLength = 0.8` in `double` arithmetic,
whose computed products are `24.0` and `56.0`. -/
theorem windowFl_rounds_toward_zero_witness :
    (-2147483648 ≤ roundDouble (roundDouble ((0.5 : ℝ) - roundDouble (0.25 * roundDouble 0.8))
        * 80) ∧
      roundDouble (roundDouble ((0.5 : ℝ) - roundDouble (0.25 * roundDouble 0.8)) * 80) ≤
        2147483647) ∧
    (-2147483648 ≤ roundDouble (roundDouble ((0.5 : ℝ) + roundDouble (0.25 * roundDouble 0.8))
        * 80) ∧
      roundDouble (roundDouble ((0.5 : ℝ) + roundDouble (0.25 * roundDouble 0.8)) * 80) ≤
        2147483647) ∧
    ∃ start stop : ℤ, windowStartFl roundDouble (0.5 : ℝ) (roundDouble 0.8) = some start ∧
      windowEndFl roundDouble (0.5 : ℝ) (roundDouble 0.8) = some stop ∧
      (0 ≤ roundDouble (roundDouble ((0.5 : ℝ) - roundDouble (0.25 * roundDouble 0.8)) * 80) →
        start = ⌊roundDouble (roundDouble ((0.5 : ℝ) - roundDouble (0.25 * roundDouble 0.8))
          * 80)⌋) ∧
      (roundDouble (roundDouble ((0.5 : ℝ) - roundDouble (0.25 * roundDouble 0.8)) * 80) ≤ 0 →
        start = ⌈roundDouble (roundDouble ((0.5 : ℝ) - roundDouble (0.25 * roundDouble 0.8))
          * 80)⌉) ∧
      (0 ≤ roundDouble (roundDouble ((0.5 : ℝ) + roundDouble (0.25 * roundDouble 0.8)) * 80) →
        stop = ⌊roundDouble (roundDouble ((0.5 : ℝ) + roundDouble (0.25 * roundDouble 0.8))
          * 80)⌋) ∧
      (roundDouble (roundDouble ((0.5 : ℝ) + roundDouble (0.25 * roundDouble 0.8)) * 80) ≤ 0 →
        stop = ⌈roundDouble (roundDouble ((0.5 : ℝ) + roundDouble (0.25 * roundDouble 0.8))
          * 80)⌉) :=
  ⟨by rw [startProduct_double_centred]; norm_num, by rw [endProduct_double_centred]; norm_num,
    windowFl_rounds_toward_zero roundDouble (0.5 : ℝ) (roundDouble 0.8)
      (by rw [startProduct_double_centred]; norm_num)
      (by rw [endProduct_double_centred]; norm_num)⟩

/-- C11 (counterexample): in `double` arithmetic take the two waves centred at the
`double` `0.00625` with `waveLength = 1/32`, whose window is the single cell `[0, 1)`
(no reflected store), with `maxHeight` 1 and 2, and the starting field with `2^53` in
every cell.  Alone on the zero field the waves produce `c1[0] = 1` and `c2[0] = 2`.
Wave 1 then wave 2 leaves `2^53 + 2` in cell 0, wave 2 then wave 1 leaves `2^53 + 4`:
the two orders differ, and neither is `f[0] + c1[0] + c2[0] = 2^53 + 3`. -/
theorem accumulateFl_order_matters :
    ∃ c1 c2 g12 g21 : HeightField ℝ,
      accumulateWaveToHeightFieldFl roundDouble (fun t => roundDouble (Real.cos t)) M_PI
        (roundDouble (0.00625 : ℝ)) (1 / 32) 1 (fun _ => 0) = some c1 ∧
      accumulateWaveToHeightFieldFl roundDouble (fun t => roundDouble (Real.cos t)) M_PI
        (roundDouble (0.00625 : ℝ)) (1 / 32) 2 (fun _ => 0) = some c2 ∧
      (accumulateWaveToHeightFieldFl roundDouble (fun t => roundDouble (Real.cos t)) M_PI
        (roundDouble (0.00625 : ℝ)) (1 / 32) 1 (fun _ => 9007199254740992)).bind
        (accumulateWaveToHeightFieldFl roundDouble (fun t => roundDouble (Real.cos t)) M_PI
          (roundDouble (0.00625 : ℝ)) (1 / 32) 2) = some g12 ∧
      (accumulateWaveToHeightFieldFl roundDouble (fun t => roundDouble (Real.cos t)) M_PI
        (roundDouble (0.00625 : ℝ)) (1 / 32) 2 (fun _ => 9007199254740992)).bind
        (accumulateWaveToHeightFieldFl roundDouble (fun t => roundDouble (Real.cos t)) M_PI
          (roundDouble (0.00625 : ℝ)) (1 / 32) 1) = some g21 ∧
      c1 ⟨0, by decide⟩ = 1 ∧ c2 ⟨0, by decide⟩ = 2 ∧
      g12 ⟨0, by decide⟩ = 9007199254740994 ∧ g21 ⟨0, by decide⟩ = 9007199254740996 ∧
      g12 ⟨0, by decide⟩ ≠ g21 ⟨0, by decide⟩ ∧
      g12 ⟨0, by decide⟩ ≠ 9007199254740992 + c1 ⟨0, by decide⟩ + c2 ⟨0, by decide⟩ ∧
      g21 ⟨0, by decide⟩ ≠ 9007199254740992 + c1 ⟨0, by decide⟩ + c2 ⟨0, by decide⟩ := by
  have hw : (0 : ℤ) ≤ 0 ∧ (0 : ℤ) ≤ 1 ∧ (1 : ℤ) ≤ 80 := by norm_num
  have hm1 : roundDouble (roundDouble ((1 : ℝ) * 0.5) * 2) = 1 := by
    rw [show (1 : ℝ) * 0.5 = 1 / 2 by norm_num, roundDouble_lit_half,
      show (1 / 2 : ℝ) * 2 = 1 by norm_num, roundDouble_lit_one]
  have hm2 : roundDouble (roundDouble ((2 : ℝ) * 0.5) * 2) = 2 := by
    rw [show (2 : ℝ) * 0.5 = 1 by norm_num, roundDouble_lit_one,
      show (1 : ℝ) * 2 = 2 by norm_num, roundDouble_lit_two]
  have hz : (((⟨0, by decide⟩ : Fin kBufferSize).val : ℕ) : ℤ) = 0 := by simp
  have s1 : roundDouble ((0 : ℝ) + 1) = 1 := by rw [zero_add]; exact roundDouble_lit_one
  have s2 : roundDouble ((0 : ℝ) + 2) = 2 := by rw [zero_add]; exact roundDouble_lit_two
  have a1 : roundDouble ((9007199254740992 : ℝ) + 1) = 9007199254740992 := by
    rw [show (9007199254740992 : ℝ) + 1 = 9007199254740993 by norm_num]
    exact roundDouble_lit_pow53_add_one
  have a2 : roundDouble ((9007199254740992 : ℝ) + 2) = 9007199254740994 := by
    rw [show (9007199254740992 : ℝ) + 2 = 9007199254740994 by norm_num]
    exact roundDouble_lit_pow53_add_two
  have a3 : roundDouble ((9007199254740994 : ℝ) + 1) = 9007199254740996 := by
    rw [show (9007199254740994 : ℝ) + 1 = 9007199254740995 by norm_num]
    exact roundDouble_lit_pow53_add_three
  refine ⟨_, _, _, _,
    accumulateFl_of_window_inside roundDouble _ M_PI _ _ 1 (fun _ => 0)
      window_double_cell.1 window_double_cell.2 hw.1 hw.2.1 hw.2.2,
    accumulateFl_of_window_inside roundDouble _ M_PI _ _ 2 (fun _ => 0)
      window_double_cell.1 window_double_cell.2 hw.1 hw.2.1 hw.2.2,
    accumulateFl_two_inside roundDouble _ M_PI _ _ 1 _ _ 2 (fun _ => 9007199254740992)
      window_double_cell.1 window_double_cell.2 hw window_double_cell.1 window_double_cell.2 hw,
    accumulateFl_two_inside roundDouble _ M_PI _ _ 2 _ _ 1 (fun _ => 9007199254740992)
      window_double_cell.1 window_double_cell.2 hw window_double_cell.1 window_double_cell.2 hw,
    ?_⟩
  simp only [hz, le_refl, zero_lt_one, and_self, if_true, waveHeightFl_double_cell, hm1, hm2, s1, s2, a1, a2, a3,
    roundDouble_lit_pow53_add_one, roundDouble_lit_pow53_add_two,
    roundDouble_lit_pow53_add_three]
  norm_num

/-- C11 (amended): in the arithmetic of the code, `fl` being the rounding of each
floating-point operation (rounding a second time changes nothing, and 0 is exact), for
every pair of waves whose windows, as the code computes them, lie inside the field
(`0 ≤ start ≤ end ≤ 80`, so no store is reflected) and every starting field `f` of
floating-point numbers: both orders of the two calls have a result; wave 1 then wave 2
leaves `fl (fl (f[k] + c1[k]) + c2[k])` at every index `k`, and wave 2 then wave 1 leaves
`fl (fl (f[k] + c2[k]) + c1[k])`, where `c1` and `c2` are the fields each wave alone
produces from the all-zero field; on the all-zero field both orders leave
`fl (c1[k] + c2[k])`, so there the result is the same in either order. -/
theorem accumulateFl_superposition {α : Type} [LinearOrderedField α] [FloorRing α]
    (fl cosF : α → α) (hidem : ∀ t, fl (fl t) = fl t)
    (hzero : fl 0 = 0) (piC x1 w1 m1 x2 w2 m2 : α) (f : HeightField α)
    (hf : ∀ k, fl (f k) = f k) (a1 b1 a2 b2 : ℤ)
    (hs1 : windowStartFl fl x1 w1 = some a1) (he1 : windowEndFl fl x1 w1 = some b1)
    (h1 : 0 ≤ a1 ∧ a1 ≤ b1 ∧ b1 ≤ 80)
    (hs2 : windowStartFl fl x2 w2 = some a2) (he2 : windowEndFl fl x2 w2 = some b2)
    (h2 : 0 ≤ a2 ∧ a2 ≤ b2 ∧ b2 ≤ 80) :
    ∃ c1 c2 g12 g21 : HeightField α,
      accumulateWaveToHeightFieldFl fl cosF piC x1 w1 m1 (fun _ => 0) = some c1 ∧
      accumulateWaveToHeightFieldFl fl cosF piC x2 w2 m2 (fun _ => 0) = some c2 ∧
      (accumulateWaveToHeightFieldFl fl cosF piC x1 w1 m1 f).bind
        (accumulateWaveToHeightFieldFl fl cosF piC x2 w2 m2) = some g12 ∧
      (accumulateWaveToHeightFieldFl fl cosF piC x2 w2 m2 f).bind
        (accumulateWaveToHeightFieldFl fl cosF piC x1 w1 m1) = some g21 ∧
      (∀ k, g12 k = fl (fl (f k + c1 k) + c2 k)) ∧
      (∀ k, g21 k = fl (fl (f k + c2 k) + c1 k)) ∧
      ((∀ k, f k = 0) → ∀ k, g12 k = fl (c1 k + c2 k) ∧ g21 k = fl (c1 k + c2 k)) := by
  have hw1 := waveHeightFl_rounded fl cosF hidem piC x1 (fl (0.25 * w1)) m1
  have hw2 := waveHeightFl_rounded fl cosF hidem piC x2 (fl (0.25 * w2)) m2
  have e12 : ∀ k : Fin kBufferSize,
      (if a2 ≤ (k.val : ℤ) ∧ (k.val : ℤ) < b2
        then fl ((if a1 ≤ (k.val : ℤ) ∧ (k.val : ℤ) < b1
            then fl (f k + waveHeightFl fl cosF piC x1 (fl (0.25 * w1)) m1 (k.val : ℤ))
            else f k) + waveHeightFl fl cosF piC x2 (fl (0.25 * w2)) m2 (k.val : ℤ))
        else (if a1 ≤ (k.val : ℤ) ∧ (k.val : ℤ) < b1
            then fl (f k + waveHeightFl fl cosF piC x1 (fl (0.25 * w1)) m1 (k.val : ℤ))
            else f k)) =
      fl (fl (f k +
          (if a1 ≤ (k.val : ℤ) ∧ (k.val : ℤ) < b1
            then fl (0 + waveHeightFl fl cosF piC x1 (fl (0.25 * w1)) m1 (k.val : ℤ))
            else 0)) +
        (if a2 ≤ (k.val : ℤ) ∧ (k.val : ℤ) < b2
          then fl (0 + waveHeightFl fl cosF piC x2 (fl (0.25 * w2)) m2 (k.val : ℤ))
          else 0)) := by
    intro k
    by_cases c1 : a1 ≤ (k.val : ℤ) ∧ (k.val : ℤ) < b1 <;>
      by_cases c2 : a2 ≤ (k.val : ℤ) ∧ (k.val : ℤ) < b2 <;>
      simp only [c1, c2, and_self, if_true, if_false, zero_add, add_zero, hw1, hw2, hidem, hf]
  have e21 : ∀ k : Fin kBufferSize,
      (if a1 ≤ (k.val : ℤ) ∧ (k.val : ℤ) < b1
        then fl ((if a2 ≤ (k.val : ℤ) ∧ (k.val : ℤ) < b2
            then fl (f k + waveHeightFl fl cosF piC x2 (fl (0.25 * w2)) m2 (k.val : ℤ))
            else f k) + waveHeightFl fl cosF piC x1 (fl (0.25 * w1)) m1 (k.val : ℤ))
        else (if a2 ≤ (k.val : ℤ) ∧ (k.val : ℤ) < b2
            then fl (f k + waveHeightFl fl cosF piC x2 (fl (0.25 * w2)) m2 (k.val : ℤ))
            else f k)) =
      fl (fl (f k +
          (if a2 ≤ (k.val : ℤ) ∧ (k.val : ℤ) < b2
            then fl (0 + waveHeightFl fl cosF piC x2 (fl (0.25 * w2)) m2 (k.val : ℤ))
            else 0)) +
        (if a1 ≤ (k.val : ℤ) ∧ (k.val : ℤ) < b1
          then fl (0 + waveHeightFl fl cosF piC x1 (fl (0.25 * w1)) m1 (k.val : ℤ))
          else 0)) := by
    intro k
    by_cases c1 : a1 ≤ (k.val : ℤ) ∧ (k.val : ℤ) < b1 <;>
      by_cases c2 : a2 ≤ (k.val : ℤ) ∧ (k.val : ℤ) < b2 <;>
      simp only [c1, c2, and_self, if_true, if_false, zero_add, add_zero, hw1, hw2, hidem, hf]
  refine ⟨_, _, _, _,
    accumulateFl_of_window_inside fl cosF piC x1 w1 m1 (fun _ => 0) hs1 he1 h1.1 h1.2.1 h1.2.2,
    accumulateFl_of_window_inside fl cosF piC x2 w2 m2 (fun _ => 0) hs2 he2 h2.1 h2.2.1 h2.2.2,
    accumulateFl_two_inside fl cosF piC x1 w1 m1 x2 w2 m2 f hs1 he1 h1 hs2 he2 h2,
    accumulateFl_two_inside fl cosF piC x2 w2 m2 x1 w1 m1 f hs2 he2 h2 hs1 he1 h1,
    e12, e21, ?_⟩
  intro hf0 k
  have hc1 : fl (if a1 ≤ (k.val : ℤ) ∧ (k.val : ℤ) < b1
      then fl (0 + waveHeightFl fl cosF piC x1 (fl (0.25 * w1)) m1 (k.val : ℤ)) else 0) =
      (if a1 ≤ (k.val : ℤ) ∧ (k.val : ℤ) < b1
      then fl (0 + waveHeightFl fl cosF piC x1 (fl (0.25 * w1)) m1 (k.val : ℤ)) else 0) := by
    split_ifs
    · exact hidem _
    · exact hzero
  have hc2 : fl (if a2 ≤ (k.val : ℤ) ∧ (k.val : ℤ) < b2
      then fl (0 + waveHeightFl fl cosF piC x2 (fl (0.25 * w2)) m2 (k.val : ℤ)) else 0) =
      (if a2 ≤ (k.val : ℤ) ∧ (k.val : ℤ) < b2
      then fl (0 + waveHeightFl fl cosF piC x2 (fl (0.25 * w2)) m2 (k.val : ℤ)) else 0) := by
    split_ifs
    · exact hidem _
    · exact hzero
  constructor
  · rw [e12 k, hf0 k, zero_add, hc1]
  · rw [e21 k, hf0 k, zero_add, hc2, add_comm]

/-- C11 (witness): `double` arithmetic with the cosine correctly rounded, the centred wave
`x = 0.5`, `waveLength = 0.8`, `maxHeight = 0.5` (window `[24, 56)`) and the wave centred
at the `double` `0.00625` with `waveLength = 1/32`, `maxHeight = 1` (window `[0, 1)`), on
the zero field. -/
theorem accumulateFl_superposition_witness :
    (∀ t : ℝ, roundDouble (roundDouble t) = roundDouble t) ∧ roundDouble (0 : ℝ) = 0 ∧
    (∀ _k : Fin kBufferSize, roundDouble (0 : ℝ) = 0) ∧
    windowStartFl roundDouble (0.5 : ℝ) (roundDouble 0.8) = some 24 ∧
    windowEndFl roundDouble (0.5 : ℝ) (roundDouble 0.8) = some 56 ∧
    ((0 : ℤ) ≤ 24 ∧ (24 : ℤ) ≤ 56 ∧ (56 : ℤ) ≤ 80) ∧
    windowStartFl roundDouble (roundDouble (0.00625 : ℝ)) (1 / 32) = some 0 ∧
    windowEndFl roundDouble (roundDouble (0.00625 : ℝ)) (1 / 32) = some 1 ∧
    ((0 : ℤ) ≤ 0 ∧ (0 : ℤ) ≤ 1 ∧ (1 : ℤ) ≤ 80) ∧
    ∃ c1 c2 g12 g21 : HeightField ℝ,
      accumulateWaveToHeightFieldFl roundDouble (fun t => roundDouble (Real.cos t)) M_PI
        (0.5 : ℝ) (roundDouble 0.8) 0.5 (fun _ => 0) = some c1 ∧
      accumulateWaveToHeightFieldFl roundDouble (fun t => roundDouble (Real.cos t)) M_PI
        (roundDouble (0.00625 : ℝ)) (1 / 32) 1 (fun _ => 0) = some c2 ∧
      (accumulateWaveToHeightFieldFl roundDouble (fun t => roundDouble (Real.cos t)) M_PI
        (0.5 : ℝ) (roundDouble 0.8) 0.5 (fun _ => 0)).bind
        (accumulateWaveToHeightFieldFl roundDouble (fun t => roundDouble (Real.cos t)) M_PI
          (roundDouble (0.00625 : ℝ)) (1 / 32) 1) = some g12 ∧
      (accumulateWaveToHeightFieldFl roundDouble (fun t => roundDouble (Real.cos t)) M_PI
        (roundDouble (0.00625 : ℝ)) (1 / 32) 1 (fun _ => 0)).bind
        (accumulateWaveToHeightFieldFl roundDouble (fun t => roundDouble (Real.cos t)) M_PI
          (0.5 : ℝ) (roundDouble 0.8) 0.5) = some g21 ∧
      (∀ k, g12 k = roundDouble (roundDouble (0 + c1 k) + c2 k)) ∧
      (∀ k, g21 k = roundDouble (roundDouble (0 + c2 k) + c1 k)) ∧
      ((∀ _k : Fin kBufferSize, (0 : ℝ) = 0) →
        ∀ k, g12 k = roundDouble (c1 k + c2 k) ∧ g21 k = roundDouble (c1 k + c2 k)) :=
  ⟨roundDouble_idem, roundDouble_zero, fun _ => roundDouble_zero,
    windowStartFl_double_centred, windowEndFl_double_centred, by norm_num,
    window_double_cell.1, window_double_cell.2, by norm_num,
    accumulateFl_superposition roundDouble (fun t => roundDouble (Real.cos t)) roundDouble_idem
      roundDouble_zero M_PI (0.5 : ℝ) (roundDouble 0.8) 0.5 (roundDouble (0.00625 : ℝ)) (1 / 32) 1
      (fun _ => 0) (fun _ => roundDouble_zero) 24 56 0 1
      windowStartFl_double_centred windowEndFl_double_centred (by norm_num)
      window_double_cell.1 window_double_cell.2 (by norm_num)⟩

/-- C15: in the arithmetic of the code, `fl` being the rounding of each floating-point
operation, when the window the code computes lies inside the field,
`0 ≤ start ≤ end ≤ 80`, the call has a result in which every entry `k` with
`start ≤ k < end` is the sum of its old value and
`maxHeight * 0.5 * (cos (min (|(k + 0.5) / 80 - x| * π / (0.25 * waveLength)) π) + 1)`,
every operation rounded, and every other entry is unchanged. -/
theorem accumulateFl_exact_inside {α : Type} [LinearOrderedField α] [FloorRing α]
    (fl cosF : α → α) (piC x w mh : α) (f : HeightField α) (a b : ℤ)
    (hs : windowStartFl fl x w = some a) (he : windowEndFl fl x w = some b)
    (h0 : 0 ≤ a) (hab : a ≤ b) (hb : b ≤ 80) :
    ∃ g, accumulateWaveToHeightFieldFl fl cosF piC x w mh f = some g ∧
      ∀ k : Fin kBufferSize,
        (a ≤ (k.val : ℤ) ∧ (k.val : ℤ) < b →
          g k = fl (f k + fl (fl (mh * 0.5) *
            fl (cosF (min (fl (fl (|fl (fl (fl ((k.val : α) + 0.5) / 80) - x)| * piC) /
              fl (0.25 * w))) piC) + 1)))) ∧
        (¬ (a ≤ (k.val : ℤ) ∧ (k.val : ℤ) < b) → g k = f k) := by
  refine ⟨_, accumulateFl_of_window_inside fl cosF piC x w mh f hs he h0 hab hb, ?_⟩
  intro k
  constructor
  · intro hk
    simp only [hk, and_self, if_true, waveHeightFl_natCast]
  · intro hk
    simp only [hk, if_false]

/-- C15 (witness): the centred wave `x = 0.5`, `waveLength = 0.8`, `maxHeight = 0.5` on
the zero field in `double` arithmetic, with the cosine correctly rounded; the window the
code computes is `[24, 56)`, and entries 0 and 79 stay 0. -/
theorem accumulateFl_exact_inside_witness :
    windowStartFl roundDouble (0.5 : ℝ) (roundDouble 0.8) = some 24 ∧
    windowEndFl roundDouble (0.5 : ℝ) (roundDouble 0.8) = some 56 ∧
    (0 : ℤ) ≤ 24 ∧ (24 : ℤ) ≤ 56 ∧ (56 : ℤ) ≤ 80 ∧
    ∃ g, accumulateWaveToHeightFieldFl roundDouble (fun t => roundDouble (Real.cos t)) M_PI
        (0.5 : ℝ) (roundDouble 0.8) 0.5 (fun _ => 0) = some g ∧
      (∀ k : Fin kBufferSize,
        ((24 : ℤ) ≤ (k.val : ℤ) ∧ (k.val : ℤ) < 56 →
          g k = roundDouble (0 + roundDouble (roundDouble (0.5 * 0.5) *
            roundDouble (roundDouble (Real.cos (min (roundDouble (roundDouble
              (|roundDouble (roundDouble (roundDouble ((k.val : ℝ) + 0.5) / 80) - 0.5)| *
                M_PI) / roundDouble (0.25 * roundDouble 0.8))) M_PI)) + 1)))) ∧
        (¬ ((24 : ℤ) ≤ (k.val : ℤ) ∧ (k.val : ℤ) < 56) → g k = 0)) ∧
      g ⟨0, by decide⟩ = 0 ∧ g ⟨79, by decide⟩ = 0 := by
  obtain ⟨g, hg, hk⟩ := accumulateFl_exact_inside roundDouble
    (fun t => roundDouble (Real.cos t)) M_PI (0.5 : ℝ) (roundDouble 0.8) 0.5 (fun _ => 0) 24 56
    windowStartFl_double_centred windowEndFl_double_centred (by norm_num) (by norm_num)
    (by norm_num)
  refine ⟨windowStartFl_double_centred, windowEndFl_double_centred, by norm_num, by norm_num,
    by norm_num, g, hg, hk, ?_, ?_⟩
  · exact (hk ⟨0, by decide⟩).2 (by norm_num)
  · exact (hk ⟨79, by decide⟩).2 (by norm_num)

end FluidSim
